import Mathlib

/-!
Shallow embedding of the `chatot` message-archive codec (src/charmap.rs,
src/encode.rs, src/decode.rs).

Modelling conventions:
- Rust `u16`/`u32` values are `Nat` with explicit `% 65536` / `% 4294967296`
  (or `&&& mask`) exactly where the source wraps, masks or casts.
- Rust `String`/`&str` values are `List Char`; a Rust `HashMap` is an
  association list looked up with `alookup` (key lookup in a map with unique
  keys does not depend on iteration order; the one iteration-order-dependent
  operation, the reverse `find` over `command_map`, is modelled as a `find?`
  over the list in list order).
- A Rust panic (out-of-bounds index, `unwrap` of `None`) is `Option.none` /
  `DecErr.panic`; `eprintln!` warnings are accumulated in `List Warn` values.
-/

/-- Association-list lookup, modelling `HashMap::get` (unique keys). -/
def alookup {α β : Type} [DecidableEq α] : List (α × β) → α → Option β
  | [], _ => none
  | (k, v) :: rest, key => if k = key then some v else alookup rest key

/-- The three charmap mappings built by `read_charmap` (charmap.rs). -/
structure Charmap where
  encode_map : List (List Char × Nat)
  decode_map : List (Nat × List Char)
  command_map : List (Nat × List Char)

/-- Tags for every `eprintln!` warning emitted by the codec. -/
inductive Warn where
  | unknownCode (c : Nat)
  | trailing (n : Nat)
  | strayCmd
  | noParamCount (c : Nat)
  | shortParams (c pc found : Nat)
  | unknownCommand (c : Nat)
  | unknownCommandName (name : List Char)
  | unknownAlias (a : List Char)
  | unmatchedBracket
  | invalidHexEscape (s : List Char)
  | incompleteHexEscape
  | unknownEscape (s : List Char)
  | incompleteEscape
  | unmatchedBrace
  | emptyCommand
  | invalidCommandFormat (s : List Char)
  | unknownChar (c : Char)
  | unknownTrainerChar (c : Char)
  deriving DecidableEq, Repr

/-- The opening-brace character (written numerically). -/
def lbrace : Char := Char.ofNat 123

/-- The closing-brace character (written numerically). -/
def rbrace : Char := Char.ofNat 125

/-- One uppercase hexadecimal digit, as printed by Rust `{:X}` formatting. -/
def hexDigit (d : Nat) : Char :=
  if d < 10 then Char.ofNat (48 + d) else Char.ofNat (55 + d)

/-- Rust `format!("{:04X}", n)` for a `u16` value (4 zero-padded hex digits). -/
def hex4 (n : Nat) : List Char :=
  [hexDigit (n / 4096 % 16), hexDigit (n / 256 % 16), hexDigit (n / 16 % 16), hexDigit (n % 16)]

/-- Rust `format!("\\x{:04X}", n)`: a literal `\xNNNN` escape. -/
def hexEsc (n : Nat) : List Char := '\\' :: 'x' :: hex4 n

/-- Rust `format!("0x{:04X}", n)`. -/
def hex0x (n : Nat) : List Char := '0' :: 'x' :: hex4 n

/-- Rust `format!("{}", n)` for an unsigned integer (decimal digits). -/
def decRepr (n : Nat) : List Char := Nat.toDigits 10 n

/- ------------------------------------------------------------------ -/
/- Keystreams (encode.rs / decode.rs, identical on both sides).        -/
/- ------------------------------------------------------------------ -/

/-- The per-table-entry XOR mask (`local_key` computation appearing both in
`decode_archive` and `encode_messages`): `u32` wrapping multiplications
`765 * i * key`, masked to 16 bits, then duplicated into the high half. -/
def localMask (i key : Nat) : Nat :=
  let lk := (765 * i) % 4294967296
  let lk := (lk * key) % 4294967296
  let lk := lk &&& 0xFFFF
  lk ||| ((lk <<< 16) % 4294967296)

/-- Initial running key of the message-body keystream:
`(index as u32).wrapping_mul(596947) as u16` (the `index` argument is a `u16`,
modelled by the inner `% 65536`). -/
def bodyKeyStart (index : Nat) : Nat := ((index % 65536) * 596947) % 65536

/-- The common XOR loop of `encrypt_message` / `decrypt_message`: XOR each code
unit with the running key, then advance the key by `18749` (u16 wrapping). -/
def xorStream : List Nat → Nat → List Nat
  | [], _ => []
  | c :: rest, k => (c ^^^ k) :: xorStream rest ((k + 18749) % 65536)

/-- `encrypt_message` (encode.rs). -/
def encrypt_message (msg : List Nat) (index : Nat) : List Nat :=
  xorStream msg (bodyKeyStart index)

/-- `decrypt_message` (decode.rs) — textually the same loop as
`encrypt_message`. -/
def decrypt_message (msg : List Nat) (index : Nat) : List Nat :=
  xorStream msg (bodyKeyStart index)

/- ------------------------------------------------------------------ -/
/- Trainer-name bit packing (encode.rs `encode_trainer_name`).         -/
/- ------------------------------------------------------------------ -/

/-- The 9-bit-into-15-bit packing loop of `encode_trainer_name`, at the level
of the already looked-up character codes.  State: `bit` = current bit offset,
`cur` = the `current_u16` accumulator.  All `u16` arithmetic wraps mod 65536;
a flushed word is masked with `0x7FFF`; after the last character the 9-bit
terminator `0x1FF` pattern (`0xFFFF << bit`) is OR-ed in if bits remain. -/
def packLoop : List Nat → Nat → Nat → List Nat
  | [], bit, cur =>
    if bit > 0 then [(cur ||| ((0xFFFF <<< bit) % 65536)) &&& 0x7FFF] else []
  | code :: rest, bit, cur =>
    let cur1 := cur ||| (((code &&& 0x1FF) <<< bit) % 65536)
    if bit + 9 ≥ 15 then
      (cur1 &&& 0x7FFF) ::
        packLoop rest (bit + 9 - 15) ((code >>> (9 - (bit + 9 - 15))) &&& 0x1FF)
    else
      packLoop rest (bit + 9) cur1

/-- The full loop of `encode_trainer_name`: per character, look up its code in
`encode_map` (warning and code 0 if absent), then pack as in `packLoop`. -/
def trainerLoop (cm : Charmap) : List Char → Nat → Nat → List Nat × List Warn
  | [], bit, cur =>
    (if bit > 0 then [(cur ||| ((0xFFFF <<< bit) % 65536)) &&& 0x7FFF] else [], [])
  | c :: rest, bit, cur =>
    let lw : Nat × List Warn :=
      match alookup cm.encode_map [c] with
      | some k => (k, [])
      | none => (0, [Warn.unknownTrainerChar c])
    let code := lw.1
    let cur1 := cur ||| (((code &&& 0x1FF) <<< bit) % 65536)
    if bit + 9 ≥ 15 then
      let r := trainerLoop cm rest (bit + 9 - 15) ((code >>> (9 - (bit + 9 - 15))) &&& 0x1FF)
      ((cur1 &&& 0x7FFF) :: r.1, lw.2 ++ r.2)
    else
      let r := trainerLoop cm rest (bit + 9) cur1
      (r.1, lw.2 ++ r.2)

/-- `encode_trainer_name` (encode.rs): pushes the `0xF100` marker, then the
packed words. -/
def encode_trainer_name (cm : Charmap) (name : List Char) : List Nat × List Warn :=
  let r := trainerLoop cm name 0 0
  (0xF100 :: r.1, r.2)

/-- The 9-bit reading loop of `decode_trainer_name` (decode.rs), at the level
of the word list after the `0xF100` marker.  Returns the 9-bit values read
before the `0x1FF` terminator together with the number of index advances
(`codes_consumed` increments).  A 9-bit window crossing a word boundary pulls
the low bits of the next word in via `slice[index] << (9 - bit) & 0x1FF`
(u16 shift), but only when that next word exists. -/
def unpackLoop : List Nat → Nat → List Nat × Nat
  | [], _ => ([], 0)
  | w :: rest, bit =>
    let code0 := (w >>> bit) &&& 0x1FF
    if h : bit + 9 ≥ 15 then
      let bit1 := bit + 9 - 15
      let code :=
        if bit1 ≠ 0 ∧ rest ≠ [] then
          code0 ||| (((rest.headD 0 <<< (9 - bit1)) % 65536) &&& 0x1FF)
        else code0
      if code = 0x1FF then ([], 1)
      else
        let r := unpackLoop rest bit1
        (code :: r.1, r.2 + 1)
    else
      if code0 = 0x1FF then ([], 0)
      else
        let r := unpackLoop (w :: rest) (bit + 9)
        (code0 :: r.1, r.2)
  termination_by words bit => (words.length, 15 - bit)

/-- `decode_trainer_name` (decode.rs): reads 9-bit values after the `0xF100`
marker until the `0x1FF` terminator, rendering each through `decode_map`
(or as `0xNNNN` if unknown); wraps the result in the `{TRAINER_NAME:...}`
(canonical) or `{TRNAME}...` (msgenc) syntax.  `to_skip` is 1 (the marker)
plus `codes_consumed` (which starts at 1 and counts index advances). -/
def decode_trainer_name (cm : Charmap) (s : List Nat) (msgenc_format : Bool) :
    List Char × Nat :=
  let r := unpackLoop (s.drop 1) 0
  let body : List Char := r.1.flatMap fun c =>
    match alookup cm.decode_map c with
    | some str => str
    | none => hex0x c
  let txt :=
    if !msgenc_format then
      ("\x7bTRAINER_NAME:".data ++ body ++ [rbrace])
    else
      ("\x7bTRNAME\x7d".data ++ body)
  (txt, 1 + (1 + r.2))

/- ------------------------------------------------------------------ -/
/- Number parsing and string utilities (std semantics used by encode). -/
/- ------------------------------------------------------------------ -/

/-- Value of one digit character for a given radix (`char::to_digit`):
`0-9`, then letters case-insensitively. -/
def digitVal (radix : Nat) (c : Char) : Option Nat :=
  let v : Option Nat :=
    if 48 ≤ c.toNat ∧ c.toNat ≤ 57 then some (c.toNat - 48)
    else if 97 ≤ c.toNat ∧ c.toNat ≤ 122 then some (c.toNat - 87)
    else if 65 ≤ c.toNat ∧ c.toNat ≤ 90 then some (c.toNat - 55)
    else none
  match v with
  | some d => if d < radix then some d else none
  | none => none

/-- Digit-accumulation loop of `from_str_radix`, failing on an invalid digit
or once the accumulator leaves `[0, bound)` (checked overflow). -/
def parseRadixAux (radix bound : Nat) : List Char → Nat → Option Nat
  | [], acc => some acc
  | c :: rest, acc =>
    match digitVal radix c with
    | some d =>
      if radix * acc + d < bound then parseRadixAux radix bound rest (radix * acc + d)
      else none
    | none => none

/-- Rust `uN::from_str_radix` for an unsigned type with exclusive upper bound
`bound`: optional sign (a `-` is only accepted for the value 0), at least one
digit, checked overflow. -/
def parseRadixU (radix bound : Nat) (s : List Char) : Option Nat :=
  let signed : Bool × List Char :=
    match s with
    | '+' :: r => (false, r)
    | '-' :: r => (true, r)
    | _ => (false, s)
  match signed.2 with
  | [] => none
  | _ =>
    match parseRadixAux radix bound signed.2 0 with
    | some v => if signed.1 ∧ v ≠ 0 then none else some v
    | none => none

/-- `parse_hex_or_decimal` (encode.rs): `0x`-prefixed hex or decimal, as a
`u32`, with every parse failure collapsing to 0 (`unwrap_or(0)`). -/
def parse_hex_or_decimal (s : List Char) : Nat :=
  if ("0x".data).isPrefixOf s then (parseRadixU 16 4294967296 (s.drop 2)).getD 0
  else (parseRadixU 10 4294967296 s).getD 0

/-- Rust `str::split(sep)`: substrings between separators, keeping empties. -/
def splitOnChar (sep : Char) : List Char → List (List Char)
  | [] => [[]]
  | c :: rest =>
    if c = sep then [] :: splitOnChar sep rest
    else
      match splitOnChar sep rest with
      | [] => [[c]]
      | p :: ps => (c :: p) :: ps

/-- Accumulator loop for `splitWs`. -/
def splitWsAux : List Char → List Char → List (List Char)
  | [], cur => if cur = [] then [] else [cur.reverse]
  | c :: rest, cur =>
    if c.isWhitespace then
      (if cur = [] then splitWsAux rest [] else cur.reverse :: splitWsAux rest [])
    else splitWsAux rest (c :: cur)

/-- Rust `str::split_whitespace`: maximal non-whitespace runs. -/
def splitWs (s : List Char) : List (List Char) := splitWsAux s []

/-- Rust `str::trim_start`. -/
def trimStart (s : List Char) : List Char := s.dropWhile (fun c => c.isWhitespace)

/-- Rust `str::trim` (both ends). -/
def trim (s : List Char) : List Char :=
  ((s.dropWhile fun c => c.isWhitespace).reverse.dropWhile fun c => c.isWhitespace).reverse

/-- Stripping loop of `trimEndMatches`; each strip of a nonempty suffix
shortens the string, so fuel `s.length` never runs out. -/
def trimEndAux (pat : List Char) : Nat → List Char → List Char
  | 0, s => s
  | fuel + 1, s =>
    if pat ≠ [] ∧ pat.isSuffixOf s then
      trimEndAux pat fuel (s.take (s.length - pat.length))
    else s

/-- Rust `str::trim_end_matches(pat)`: repeatedly remove the suffix `pat`. -/
def trimEndMatches (pat s : List Char) : List Char := trimEndAux pat s.length s

/- ------------------------------------------------------------------ -/
/- Command codec (decode.rs `decode_command`, encode.rs commands).     -/
/- ------------------------------------------------------------------ -/

/-- `decode_command` (decode.rs).  The slice starts at the `0xFFFE` marker.
Returns `none` where the Rust code panics: the bounds guards
(`is_empty`, `len() < 2`) are placed after the `message_slice[1]` /
`message_slice[2]` indexings, so a slice of length 1 or 2 hits an
out-of-bounds index before the corresponding guard can fire. -/
def decode_command (cm : Charmap) (s : List Nat) (msgenc_format : Bool) :
    Option (List Char × Nat × List Warn) :=
  if s = [] then some (hexEsc 0xFFFE, 1, [Warn.strayCmd])
  else
    match s[1]? with
    | none => none
    | some rawCode =>
      if s.length < 2 then
        some (hexEsc 0xFFFE ++ hexEsc rawCode, 2, [Warn.noParamCount rawCode])
      else
        match s[2]? with
        | none => none
        | some param_count =>
          let to_skip := 3 + param_count
          if s.length < 3 + param_count then
            some (hexEsc 0xFFFE ++ hexEsc rawCode ++ hexEsc param_count, to_skip,
              [Warn.shortParams rawCode param_count (s.length - 3)])
          else
            let params := (s.drop 3).take param_count
            let sbcc : Nat × Nat :=
              if (alookup cm.command_map rawCode).isNone ∧
                  (alookup cm.command_map (rawCode &&& 0xFF00)).isSome then
                (rawCode &&& 0x00FF, rawCode &&& 0xFF00)
              else (0, rawCode)
            let special_byte := sbcc.1
            let command_code := sbcc.2
            let cmdw : List Char × List Warn :=
              match alookup cm.command_map command_code with
              | some name => (name, [])
              | none => (hex0x command_code, [Warn.unknownCommand command_code])
            if !msgenc_format then
              let params1 := special_byte :: params
              let param_str :=
                trimEndMatches (", ".data)
                  (params1.flatMap fun p => decRepr p ++ (", ".data))
              some (lbrace :: (cmdw.1 ++ (", ".data) ++ param_str ++ [rbrace]),
                to_skip, cmdw.2)
            else
              let params1 := if special_byte ≠ 0 then special_byte :: params else params
              let param_str :=
                match params1 with
                | [] => []
                | p :: rest => decRepr p ++ rest.flatMap fun q => (", ".data) ++ decRepr q
              some (lbrace :: (cmdw.1 ++ [' '] ++ param_str ++ [rbrace]),
                to_skip, cmdw.2)

/-- `encode_command` (encode.rs), canonical format: split on commas, trim;
`parts[0]` is the command name (reverse lookup in `command_map`, with a
numeric-parse fallback), `parts[1]` the special byte OR-ed into the code,
the rest the parameters. -/
def encode_command (cm : Charmap) (command_str : List Char) : List Nat × List Warn :=
  let parts := (splitOnChar ',' command_str).map trim
  if parts.length < 2 then ([0], [Warn.invalidCommandFormat command_str])
  else
    let command_name := parts.headD []
    let ccw : Nat × List Warn :=
      match cm.command_map.find? (fun p => decide (p.2 = command_name)) with
      | some p => (p.1, [])
      | none => (parse_hex_or_decimal command_name % 65536,
          [Warn.unknownCommandName command_name])
    let special_byte := parse_hex_or_decimal (parts.getD 1 []) % 65536
    let command_code := ccw.1 ||| special_byte
    (0xFFFE :: command_code :: ((parts.length - 2) % 65536) ::
        (parts.drop 2).map (fun p => parse_hex_or_decimal p % 65536),
      ccw.2)

/-- `encode_command_msgenc` (encode.rs): first whitespace-separated token is
the command name (`next().unwrap()` — `none` models the panic on an
all-whitespace command string), the rest is split on commas with empties
dropped; the first token is consumed as the special byte only for
`STRVAR_`-named commands. -/
def encode_command_msgenc (cm : Charmap) (command_str : List Char) :
    Option (List Nat × List Warn) :=
  match splitWs command_str with
  | [] => none
  | command_name :: restTokens =>
    let parts := (restTokens.flatMap fun t => (splitOnChar ',' t).map trim).filter
      fun t => !t.isEmpty
    let ccw : Nat × List Warn :=
      match cm.command_map.find? (fun p => decide (p.2 = command_name)) with
      | some p => (p.1, [])
      | none => (parse_hex_or_decimal command_name % 65536,
          [Warn.unknownCommandName command_name])
    let sbres : Nat × List (List Char) :=
      if parts.length > 0 ∧ ("STRVAR_".data).isPrefixOf command_name then
        (ccw.1 ||| (parse_hex_or_decimal (parts.headD []) % 65536), parts.drop 1)
      else (ccw.1, parts)
    some (0xFFFE :: sbres.1 :: (sbres.2.length % 65536) ::
        sbres.2.map (fun p => parse_hex_or_decimal p % 65536),
      ccw.2)

/- ------------------------------------------------------------------ -/
/- Message codec (decode.rs `decode_message_to_string`,                -/
/- encode.rs `encode_string_to_message`).                              -/
/- ------------------------------------------------------------------ -/

/-- Every successful `decode_command` reports a consumed count of at least 1
(`to_skip` starts at 1). -/
theorem decode_command_skip_pos (cm : Charmap) (s : List Nat) (f : Bool)
    (r : List Char × Nat × List Warn) (h : decode_command cm s f = some r) :
    1 ≤ r.2.1 := by
  rcases s with _ | ⟨a, _ | ⟨b, _ | ⟨c, tl⟩⟩⟩
  · simp only [decode_command, reduceIte] at h
    rw [Option.some.injEq] at h
    subst h
    dsimp only
    omega
  · simp [decode_command] at h
  · simp [decode_command] at h
  · simp only [decode_command, List.cons_ne_nil, ite_false, List.getElem?_cons_succ,
      List.getElem?_cons_zero, List.length_cons, reduceIte] at h
    have hlen : ¬ (tl.length + 1 + 1 + 1 < 2) := by omega
    rw [if_neg hlen] at h
    repeat' split at h
    all_goals (rw [Option.some.injEq] at h; subst h; dsimp only; omega)

/-- `decode_trainer_name` always reports a consumed count of at least 2
(the `0xF100` marker plus the initial `codes_consumed = 1`). -/
theorem decode_trainer_name_skip_pos (cm : Charmap) (s : List Nat) (f : Bool) :
    1 ≤ (decode_trainer_name cm s f).2 := by
  simp [decode_trainer_name]

/-- State returned by the scanning loop of `decode_message_to_string`:
decoded text, warnings in emission order, the final value of `i`, and
whether the loop stopped on a `0xFFFF` terminator. -/
structure MsgLoopOut where
  text : List Char
  warns : List Warn
  stopIdx : Nat
  atTerm : Bool
  deriving DecidableEq, Repr

/-- The `while i < len` loop of `decode_message_to_string` (decode.rs),
starting at index `i`.  `none` propagates a panic from `decode_command`. -/
def decodeMsgLoop (cm : Charmap) (codes : List Nat) (msgenc_format : Bool)
    (i : Nat) : Option MsgLoopOut :=
  if hi : i < codes.length then
    let code := codes.getD i 0
    if code = 0xFFFF then some ⟨[], [], i, true⟩
    else if code = 0xFFFE then
      match hc : decode_command cm (codes.drop i) msgenc_format with
      | none => none
      | some cres =>
        match decodeMsgLoop cm codes msgenc_format (i + cres.2.1) with
        | none => none
        | some r => some ⟨cres.1 ++ r.text, cres.2.2 ++ r.warns, r.stopIdx, r.atTerm⟩
    else if code = 0xF100 then
      let tres := decode_trainer_name cm (codes.drop i) msgenc_format
      match decodeMsgLoop cm codes msgenc_format (i + tres.2) with
      | none => none
      | some r => some ⟨tres.1 ++ r.text, r.warns, r.stopIdx, r.atTerm⟩
    else
      match alookup cm.decode_map code with
      | some str =>
        match decodeMsgLoop cm codes msgenc_format (i + 1) with
        | none => none
        | some r => some ⟨str ++ r.text, r.warns, r.stopIdx, r.atTerm⟩
      | none =>
        match decodeMsgLoop cm codes msgenc_format (i + 1) with
        | none => none
        | some r =>
          some ⟨hexEsc code ++ r.text, Warn.unknownCode code :: r.warns,
            r.stopIdx, r.atTerm⟩
  else some ⟨[], [], i, false⟩
  termination_by codes.length - i
  decreasing_by
    all_goals first
      | (have hskip := decode_command_skip_pos cm (codes.drop i) msgenc_format cres hc
         omega)
      | (have hskip := decode_trainer_name_skip_pos cm (codes.drop i) msgenc_format
         omega)
      | omega

/-- `decode_message_to_string` (decode.rs): run the loop from index 0, then
emit the trailing-data warning when `(i + 1) < len` for the final `i`. -/
def decode_message_to_string (cm : Charmap) (codes : List Nat)
    (msgenc_format : Bool) : Option MsgLoopOut :=
  (decodeMsgLoop cm codes msgenc_format 0).map fun r =>
    if r.stopIdx + 1 < codes.length then
      ⟨r.text, r.warns ++ [Warn.trailing (codes.length - (r.stopIdx + 1))],
        r.stopIdx, r.atTerm⟩
    else r

/-- Scan of the `[...]`-alias loop in `encode_string_to_message`: characters
up to and including the first occurrence of `stop`, the remainder, and
whether `stop` was found. -/
def scanIncl (stop : Char) : List Char → List Char × List Char × Bool
  | [] => ([], [], false)
  | c :: rest =>
    if c = stop then ([c], rest, true)
    else
      let r := scanIncl stop rest
      (c :: r.1, r.2.1, r.2.2)

/-- Scan of the `{...}`-command loop in `encode_string_to_message`:
characters strictly before the first occurrence of `stop` (which is
consumed), the remainder, and whether `stop` was found. -/
def scanExcl (stop : Char) : List Char → List Char × List Char × Bool
  | [] => ([], [], false)
  | c :: rest =>
    if c = stop then ([], rest, true)
    else
      let r := scanExcl stop rest
      (c :: r.1, r.2.1, r.2.2)

/-- The remainder of a `scanIncl` is no longer than the input. -/
theorem scanIncl_rem_le (stop : Char) (s : List Char) :
    (scanIncl stop s).2.1.length ≤ s.length := by
  induction s with
  | nil => simp [scanIncl]
  | cons c rest ih =>
    simp only [scanIncl]
    split
    · simp
    · simpa using Nat.le_succ_of_le ih

/-- The remainder of a `scanExcl` is no longer than the input. -/
theorem scanExcl_rem_le (stop : Char) (s : List Char) :
    (scanExcl stop s).2.1.length ≤ s.length := by
  induction s with
  | nil => simp [scanExcl]
  | cons c rest ih =>
    simp only [scanExcl]
    split
    · simp
    · simpa using Nat.le_succ_of_le ih

/-- The `while let Some(ch) = chars.next()` loop of
`encode_string_to_message` (encode.rs).  `none` propagates the
`encode_command_msgenc` panic. -/
def encodeMsgLoop (cm : Charmap) (msgenc_format : Bool) :
    List Char → Option (List Nat × List Warn)
  | [] => some ([], [])
  | c :: rest =>
    match alookup cm.encode_map [c] with
    | some code =>
      (encodeMsgLoop cm msgenc_format rest).map fun r => (code :: r.1, r.2)
    | none =>
      if c = '[' then
        let sc := scanIncl ']' rest
        let aliasStr := '[' :: sc.1
        if sc.2.2 then
          match alookup cm.encode_map aliasStr with
          | some code =>
            (encodeMsgLoop cm msgenc_format sc.2.1).map fun r => (code :: r.1, r.2)
          | none =>
            (encodeMsgLoop cm msgenc_format sc.2.1).map fun r =>
              (0 :: r.1, Warn.unknownAlias aliasStr :: r.2)
        else
          (encodeMsgLoop cm msgenc_format sc.2.1).map fun r =>
            (0 :: r.1, Warn.unmatchedBracket :: r.2)
      else if c = '\\' then
        match rest with
        | [] => some ([0], [Warn.incompleteEscape])
        | c2 :: rest2 =>
          if c2 = 'x' then
            let hexStr := rest2.take 4
            if hexStr.length = 4 then
              match parseRadixU 16 65536 hexStr with
              | some code =>
                (encodeMsgLoop cm msgenc_format (rest2.drop 4)).map fun r =>
                  (code :: r.1, r.2)
              | none =>
                (encodeMsgLoop cm msgenc_format (rest2.drop 4)).map fun r =>
                  (0 :: r.1, Warn.invalidHexEscape hexStr :: r.2)
            else
              (encodeMsgLoop cm msgenc_format (rest2.drop 4)).map fun r =>
                (0 :: r.1, Warn.incompleteHexEscape :: r.2)
          else
            let escSeq := ['\\', c2]
            match alookup cm.encode_map escSeq with
            | some code =>
              (encodeMsgLoop cm msgenc_format rest2).map fun r => (code :: r.1, r.2)
            | none =>
              (encodeMsgLoop cm msgenc_format rest2).map fun r =>
                (0 :: r.1, Warn.unknownEscape escSeq :: r.2)
      else if c = lbrace then
        let sc := scanExcl rbrace rest
        let command_str := sc.1
        if !sc.2.2 then
          (encodeMsgLoop cm msgenc_format sc.2.1).map fun r =>
            (0 :: r.1, Warn.unmatchedBrace :: r.2)
        else if command_str = [] then
          (encodeMsgLoop cm msgenc_format sc.2.1).map fun r =>
            (0 :: r.1, Warn.emptyCommand :: r.2)
        else if ("TRAINER_NAME:".data).isPrefixOf command_str then
          let tr := encode_trainer_name cm (command_str.drop 13)
          (encodeMsgLoop cm msgenc_format sc.2.1).map fun r =>
            (tr.1 ++ r.1, tr.2 ++ r.2)
        else if msgenc_format ∧ ("TRNAME".data).isPrefixOf command_str then
          let tr := encode_trainer_name cm sc.2.1
          some (tr.1, tr.2)
        else if msgenc_format then
          match encode_command_msgenc cm command_str with
          | none => none
          | some ec =>
            (encodeMsgLoop cm msgenc_format sc.2.1).map fun r =>
              (ec.1 ++ r.1, ec.2 ++ r.2)
        else
          let ec := encode_command cm command_str
          (encodeMsgLoop cm msgenc_format sc.2.1).map fun r =>
            (ec.1 ++ r.1, ec.2 ++ r.2)
      else
        (encodeMsgLoop cm msgenc_format rest).map fun r =>
          (0 :: r.1, Warn.unknownChar c :: r.2)
  termination_by text => text.length
  decreasing_by
    all_goals simp only [List.length_cons, List.length_drop]
    all_goals first
      | omega
      | (have hskip := scanIncl_rem_le ']' rest; omega)
      | (have hskip := scanExcl_rem_le rbrace rest; omega)

/-- `encode_string_to_message` (encode.rs): the scanning loop followed by the
unconditional `0xFFFF` terminator push. -/
def encode_string_to_message (cm : Charmap) (text : List Char)
    (msgenc_format : Bool) : Option (List Nat × List Warn) :=
  (encodeMsgLoop cm msgenc_format text).map fun r => (r.1 ++ [0xFFFF], r.2)

/- ------------------------------------------------------------------ -/
/- Archive codec (decode.rs `decode_archive`,                          -/
/- encode.rs `encode_messages`), byte level, little-endian.            -/
/- ------------------------------------------------------------------ -/

/-- `write_u16::<LittleEndian>`: two bytes, low first (an oversized value is
truncated exactly as by `as u16`). -/
def u16ToBytes (x : Nat) : List Nat := [x % 256, x / 256 % 256]

/-- `write_u32::<LittleEndian>`: four bytes, low first. -/
def u32ToBytes (x : Nat) : List Nat :=
  [x % 256, x / 256 % 256, x / 65536 % 256, x / 16777216 % 256]

/-- `read_u16::<LittleEndian>` at a byte position; `none` at end of data. -/
def readU16 (bytes : List Nat) (pos : Nat) : Option Nat :=
  match bytes[pos]?, bytes[pos + 1]? with
  | some a, some b => some (a + 256 * b)
  | _, _ => none

/-- `read_u32::<LittleEndian>` at a byte position; `none` at end of data. -/
def readU32 (bytes : List Nat) (pos : Nat) : Option Nat :=
  match readU16 bytes pos, readU16 bytes (pos + 2) with
  | some a, some b => some (a + 65536 * b)
  | _, _ => none

/-- Decoded archive: the `TextArchive` struct of decode.rs. -/
structure TextArchive where
  key : Nat
  messages : List (List Char)
  deriving DecidableEq, Repr

/-- How `decode_archive` can fail: a propagated read error from the header or
table (`?` on `read_u16`/`read_u32`), the explicit malformed-entry error, or
a panic (`unwrap` of a failed body read, or the `decode_command` panic). -/
inductive DecErr where
  | eof
  | malformed
  | panic
  deriving DecidableEq, Repr

/-- `Cursor::seek(SeekFrom::Start(pos))` over in-memory bytes: it always
succeeds, for every position, including positions past the end of the data.
This is the operation `decode_archive` uses as its bounds check. -/
def cursorSeekStart (_bytes : List Nat) (_pos : Nat) : Except String Unit :=
  Except.ok ()

/-- The table-reading loop of `decode_archive`: `n` remaining entries, the
next at index `i`; each raw `(offset, length)` pair is unmasked with
`localMask (i+1) key`. -/
def readTable (bytes : List Nat) (key : Nat) : Nat → Nat → Option (List (Nat × Nat))
  | 0, _ => some []
  | n + 1, i =>
    match readU32 bytes (4 + 8 * i), readU32 bytes (4 + 8 * i + 4) with
    | some off, some len =>
      let m := localMask (i + 1) key
      (readTable bytes key n (i + 1)).map fun rest => (off ^^^ m, len ^^^ m) :: rest
    | _, _ => none

/-- The body-reading loop: `length` consecutive `read_u16` calls starting at a
byte position.  `none` models the `.unwrap()` panic on a failed read. -/
def readCodes (bytes : List Nat) (pos : Nat) : Nat → Option (List Nat)
  | 0 => some []
  | n + 1 =>
    match readU16 bytes pos with
    | some c => (readCodes bytes (pos + 2) n).map fun rest => c :: rest
    | none => none

/-- The per-entry loop of `decode_archive`: seek to the implied end (the
intended bounds check — but `cursorSeekStart` never fails), read and decrypt
the body, decode it to text.  `i` is the 1-based message index. -/
def decodeBodies (cm : Charmap) (bytes : List Nat) (msgenc_format : Bool) :
    List (Nat × Nat) → Nat → Except DecErr (List (List Char))
  | [], _ => Except.ok []
  | (off, len) :: rest, i =>
    if (cursorSeekStart bytes (off + len * 2)).isOk then
      match readCodes bytes off len with
      | none => Except.error DecErr.panic
      | some enc =>
        match decode_message_to_string cm (decrypt_message enc i) msgenc_format with
        | none => Except.error DecErr.panic
        | some r =>
          match decodeBodies cm bytes msgenc_format rest (i + 1) with
          | Except.error e => Except.error e
          | Except.ok msgs => Except.ok (r.text :: msgs)
    else Except.error DecErr.malformed

/-- `decode_archive` (decode.rs), instantiated at an in-memory cursor over
`bytes`: read `message_count` and `key`, read and unmask the table, then read,
decrypt and decode each body in table order. -/
def decode_archive (cm : Charmap) (bytes : List Nat) (msgenc_format : Bool) :
    Except DecErr TextArchive :=
  match readU16 bytes 0 with
  | none => Except.error DecErr.eof
  | some message_count =>
    match readU16 bytes 2 with
    | none => Except.error DecErr.eof
    | some key =>
      match readTable bytes key message_count 0 with
      | none => Except.error DecErr.eof
      | some table =>
        match decodeBodies cm bytes msgenc_format table 1 with
        | Except.error e => Except.error e
        | Except.ok messages => Except.ok ⟨key, messages⟩

/-- The per-message loop of `encode_messages`: encode each message to codes
and encrypt it with its 1-based index (`message_index as u16`). -/
def encodeAll (cm : Charmap) (msgenc_format : Bool) :
    List (List Char) → Nat → Option (List (List Nat))
  | [], _ => some []
  | m :: rest, idx =>
    match encode_string_to_message cm m msgenc_format with
    | none => none
    | some r =>
      (encodeAll cm msgenc_format rest (idx + 1)).map fun tail =>
        encrypt_message r.1 idx :: tail

/-- Relative message-table construction of `encode_messages`: each entry is
`(running byte offset, length in u16 units)`, the offset advancing by
`length * 2` (u32 wrapping). -/
def buildTable : List Nat → Nat → List (Nat × Nat)
  | [], _ => []
  | l :: rest, off => (off, l) :: buildTable rest ((off + l * 2) % 4294967296)

/-- Table serialization of `encode_messages`: entry `i` is masked with
`localMask (i+1) key` and written as two little-endian `u32` values. -/
def tableBytes (key : Nat) : List (Nat × Nat) → Nat → List Nat
  | [], _ => []
  | (off, len) :: rest, i =>
    let m := localMask (i + 1) key
    u32ToBytes (off ^^^ m) ++ u32ToBytes (len ^^^ m) ++ tableBytes key rest (i + 1)

/-- `encode_messages` (encode.rs): encode and encrypt every message, build the
relative table, shift every offset by `message_count * 8 + 4` (table plus
header, u32 wrapping), then emit header, masked table and bodies. -/
def encode_messages (cm : Charmap) (key : Nat) (messages : List (List Char))
    (msgenc_format : Bool) : Option (List Nat) :=
  match encodeAll cm msgenc_format messages 1 with
  | none => none
  | some encs =>
    let message_count := messages.length
    let table := (buildTable (encs.map List.length) 0).map
      fun e => ((e.1 + (message_count * 8 + 4)) % 4294967296, e.2)
    some (u16ToBytes message_count ++ u16ToBytes key ++ tableBytes key table 0 ++
      encs.flatten.flatMap u16ToBytes)

/- ------------------------------------------------------------------ -/
/- Text and JSON serializers (encode.rs `encode_text`,                 -/
/- decode.rs `write_decoded_json`, encode.rs `encode_json`).           -/
/- ------------------------------------------------------------------ -/

/-- The line classification loop of `encode_text` (encode.rs): a line with the
`// Key: ` marker (re)assigns the key (`as u16`) and is skipped; a line whose
trimmed start begins with `//` is a dropped comment; every other line is a
message. -/
def encodeTextScan (lines : List (List Char)) : Nat × List (List Char) :=
  lines.foldl
    (fun acc line =>
      if ("// Key: ".data).isPrefixOf line then
        (parse_hex_or_decimal (trim (line.drop 8)) % 65536, acc.2)
      else if ("//".data).isPrefixOf (trimStart line) then acc
      else (acc.1, acc.2 ++ [line]))
    (0, [])

/-- Rust `str::lines`: split on `\n`, drop a final empty segment, strip one
trailing `\r` from each line. -/
def rustLines (s : List Char) : List (List Char) :=
  let segs := splitOnChar '\n' s
  let segs := if segs.getLast? = some [] then segs.dropLast else segs
  segs.map fun l => if l.getLast? = some '\r' then l.dropLast else l

/-- `encode_text` (encode.rs). -/
def encode_text (cm : Charmap) (text : List Char) (msgenc_format : Bool) :
    Option (List Nat) :=
  let scan := encodeTextScan (rustLines text)
  encode_messages cm scan.1 scan.2 msgenc_format

/-- JSON per-language message content (decode.rs `MessageContent`). -/
inductive MessageContent where
  | single (s : List Char)
  | multi (ls : List (List Char))
  deriving DecidableEq, Repr

/-- Does the accumulated piece end with one of the literal two-character
markers `\n`, `\r`, `\f` (`current.ends_with(..)` in `write_decoded_json`)? -/
def endsMarker (s : List Char) : Bool :=
  ("\\n".data).isSuffixOf s || ("\\r".data).isSuffixOf s || ("\\f".data).isSuffixOf s

/-- The char-scanning split loop of `write_decoded_json` (decode.rs): push
each character onto `current`, flush right after a marker, keep a nonempty
remainder. -/
def splitLoop : List Char → List Char → List (List Char)
  | [], cur => if cur = [] then [] else [cur]
  | c :: rest, cur =>
    let cur1 := cur ++ [c]
    if endsMarker cur1 then cur1 :: splitLoop rest [] else splitLoop rest cur1

/-- The line list `write_decoded_json` computes for one message. -/
def splitMarkers (msg : List Char) : List (List Char) := splitLoop msg []

/-- The content value `write_decoded_json` stores: a plain string when the
split produced exactly one line, otherwise the array of lines. -/
def jsonContent (msg : List Char) : MessageContent :=
  let lines := splitMarkers msg
  if lines.length = 1 then MessageContent.single msg else MessageContent.multi lines

/-- How `encode_json` (encode.rs) turns content back into one message:
`Single` as-is, `Multi` joined with the empty separator. -/
def contentText : MessageContent → List Char
  | MessageContent.single s => s
  | MessageContent.multi ls => ls.flatten

/-- Whether a message contains one of the literal marker sequences. -/
def containsMarker (msg : List Char) : Bool :=
  decide (("\\n".data) <:+: msg) || decide (("\\r".data) <:+: msg) ||
    decide (("\\f".data) <:+: msg)

/- ------------------------------------------------------------------ -/
/- Concrete charmaps used by witnesses and counterexamples.            -/
/- ------------------------------------------------------------------ -/

/-- The empty charmap. -/
def cmEmpty : Charmap := ⟨[], [], []⟩

/-- A charmap whose command map holds only `0x1200 → "MOVE"`. -/
def cmMove : Charmap := ⟨[], [], [(0x1200, "MOVE".data)]⟩

/-- A one-character charmap, `"A" ↔ 0x41`. -/
def cmA : Charmap := ⟨[("A".data, 0x41)], [(0x41, "A".data)], []⟩

/-- A charmap mapping the character `A` to the reserved terminator code
`0xFFFF` (accepted without complaint by `read_charmap`). -/
def cmBad : Charmap := ⟨[("A".data, 0xFFFF)], [(0xFFFF, "A".data)], []⟩

/-- Trainer-name charmap with `a ↔ 0x10` and `b ↔ 0x20`. -/
def cmTrainer : Charmap :=
  ⟨[("a".data, 0x10), ("b".data, 0x20)],
   [(0x10, "a".data), (0x20, "b".data)], []⟩

/-- Trainer-name charmap with `a → 0` and `b → 0x2FF` (a code above the
9-bit range). -/
def cmHigh : Charmap := ⟨[("a".data, 0), ("b".data, 0x2FF)], [], []⟩

/- ------------------------------------------------------------------ -/
/- Round-trip helpers: the shape of an archive all of whose characters -/
/- have plain, invertible charmap codes.                               -/
/- ------------------------------------------------------------------ -/

/-- A character the archive round-trip can preserve: its `encode_map` code
exists, fits in `u16`, is none of the three control codes (`0xFFFF`
terminator, `0xFFFE` command marker, `0xF100` trainer-name marker), and
`decode_map` renders the code back as exactly that one character. -/
def goodCode (cm : Charmap) (c : Char) : Bool :=
  match alookup cm.encode_map [c] with
  | none => false
  | some k =>
    decide (k < 65536 ∧ k ≠ 0xFFFF ∧ k ≠ 0xFFFE ∧ k ≠ 0xF100 ∧
      alookup cm.decode_map k = some [c])

/-- The `encode_map` code of a character. -/
def codeOf (cm : Charmap) (c : Char) : Nat := (alookup cm.encode_map [c]).getD 0

/-- The code-unit sequence `encode_string_to_message` produces for a message
whose characters all carry a plain `encode_map` code: one code per character,
then the `0xFFFF` terminator. -/
def msgCodes (cm : Charmap) (m : List Char) : List Nat :=
  m.map (codeOf cm) ++ [0xFFFF]

/-- The encrypted bodies `encodeAll` produces for such messages, starting at
1-based message index `i`. -/
def encBodies (cm : Charmap) : List (List Char) → Nat → List (List Nat)
  | [], _ => []
  | m :: rest, i => encrypt_message (msgCodes cm m) i :: encBodies cm rest (i + 1)

/-- Absolute message-table entries for bodies of the given lengths (in u16
units) laid out consecutively from byte offset `base`. -/
def entriesFor : List Nat → Nat → List (Nat × Nat)
  | [], _ => []
  | l :: rest, base => (base, l) :: entriesFor rest (base + 2 * l)

/- ------------------------------------------------------------------ -/
/- Claim theorems.                                                     -/
/- ------------------------------------------------------------------ -/

/-- C2: the claim states that an archive whose (unmasked) table entry implies
an end past the archive length makes decoding fail with a MalformedArchive
error, never panicking.  The code instead panics: `Cursor::seek(Start(..))`
never fails, so the seek-based bounds check cannot fire, and the subsequent
`read_u16().unwrap()` hits end-of-data.  Concretely, for the 12-byte archive
`count = 1, key = 0` with entry `offset = 16, length = 5` (implied end
`16 + 5*2 = 26 > 12`), decoding ends in the modelled panic rather than the
malformed-archive error. -/
theorem C2_out_of_range_entry_panics :
    decode_archive cmEmpty [1, 0, 0, 0, 16, 0, 0, 0, 5, 0, 0, 0] false
      = Except.error DecErr.panic ∧
    decode_archive cmEmpty [1, 0, 0, 0, 16, 0, 0, 0, 5, 0, 0, 0] false
      ≠ Except.error DecErr.malformed := by
  have h1 : decode_archive cmEmpty [1, 0, 0, 0, 16, 0, 0, 0, 5, 0, 0, 0] false
      = Except.error DecErr.panic := rfl
  refine ⟨h1, ?_⟩
  rw [h1]
  simp

/-- C3: the claim states that a command slice that is too short at any point
is handled with a warning and literal hex escapes.  When the `0xFFFE` marker
is the last code unit (slice `[0xFFFE]`, length 1), the code panics at
`message_slice[1]`, and when the command code is not followed by a parameter
count (slice `[0xFFFE, c]`, length 2) it panics at `message_slice[2]`: both
length guards sit after the corresponding indexing, so whole-message
decoding panics as well. -/
theorem C3_short_slice_panics :
    decode_command cmEmpty [0xFFFE] false = none ∧
    decode_command cmEmpty [0xFFFE, 0x1234] false = none ∧
    decode_message_to_string cmEmpty [0xFFFE] false = none := by
  refine ⟨rfl, rfl, ?_⟩
  rw [decode_message_to_string, decodeMsgLoop]
  rfl

/-- C4: the claim states that message encoding never aborts, degrading every
malformed `{...}` command to a placeholder.  In msgenc format the command
text `" "` (input `"{ }"`) passes the `is_empty` guard but makes
`encode_command_msgenc` panic on `split_whitespace().next().unwrap()`, so
encoding of that input aborts instead of producing a placeholder. -/
theorem C4_msgenc_empty_command_panics :
    encode_command_msgenc cmEmpty (" ".data) = none ∧
    encode_string_to_message cmEmpty ("\x7b \x7d".data) true = none := by
  refine ⟨rfl, ?_⟩
  rw [encode_string_to_message, encodeMsgLoop]
  rfl

/-- C6: decoding `0xFFFE, 0x1234, 0x0002, 0x0005, 0x0006` in canonical format
with a charmap where `0x1234` is absent from the command map but
`0x1200 → "MOVE"` yields exactly `{MOVE, 52, 5, 6}` (and consumes all five
code units): the low byte `0x34 = 52` is split off as the special byte and
emitted first, then the two parameters, comma-separated. -/
theorem C6_family_split_decode :
    decode_command cmMove [0xFFFE, 0x1234, 0x0002, 0x0005, 0x0006] false
      = some ("\x7bMOVE, 52, 5, 6\x7d".data, 5, []) := by
  decide

theorem decode_command_no_trailing (cm : Charmap) (s : List Nat) (f : Bool)
    (r : List Char × Nat × List Warn) (h : decode_command cm s f = some r) (n : Nat) :
    Warn.trailing n ∉ r.2.2 := by
  rcases s with _ | ⟨a, _ | ⟨b, _ | ⟨c, tl⟩⟩⟩
  · simp only [decode_command, reduceIte] at h
    rw [Option.some.injEq] at h
    subst h
    simp
  · simp [decode_command] at h
  · simp [decode_command] at h
  · simp only [decode_command, List.cons_ne_nil, ite_false, List.getElem?_cons_succ,
      List.getElem?_cons_zero, List.length_cons, reduceIte] at h
    have hlen : ¬ (tl.length + 1 + 1 + 1 < 2) := by omega
    rw [if_neg hlen] at h
    repeat' split at h
    all_goals (rw [Option.some.injEq] at h; subst h; simp)

theorem decodeMsgLoop_no_trailing (cm : Charmap) (codes : List Nat) (fmt : Bool) :
    ∀ (k i : Nat) (r : MsgLoopOut), codes.length - i ≤ k →
      decodeMsgLoop cm codes fmt i = some r → ∀ n, Warn.trailing n ∉ r.warns := by
  intro k
  induction k with
  | zero =>
    intro i r hk h n
    rw [decodeMsgLoop] at h
    rw [dif_neg (by omega)] at h
    rw [Option.some.injEq] at h
    subst h
    simp
  | succ k ih =>
    intro i r hk h n
    rw [decodeMsgLoop] at h
    by_cases hi : i < codes.length
    case neg =>
      rw [dif_neg hi] at h
      rw [Option.some.injEq] at h
      subst h
      simp
    case pos =>
      rw [dif_pos hi] at h
      simp only [] at h
      repeat' split at h
      all_goals try exact Option.noConfusion h
      all_goals rw [Option.some.injEq] at h
      all_goals subst h
      · simp
      · rename_i cres heq1 x r0 heq2
        have hskip := decode_command_skip_pos cm (codes.drop i) fmt cres heq1
        simp only [List.mem_append, not_or]
        exact ⟨decode_command_no_trailing cm (codes.drop i) fmt cres heq1 n,
          ih (i + cres.2.1) r0 (by omega) heq2 n⟩
      · rename_i x r0 heq2
        have hskip := decode_trainer_name_skip_pos cm (codes.drop i) fmt
        exact ih (i + (decode_trainer_name cm (codes.drop i) fmt).2) r0 (by omega) heq2 n
      · rename_i x1 str heq1 x r0 heq2
        exact ih (i + 1) r0 (by omega) heq2 n
      · rename_i x1 heq1 x r0 heq2
        simp only [List.mem_cons, not_or]
        exact ⟨by simp, ih (i + 1) r0 (by omega) heq2 n⟩

/-- C7: counterexample to the claim as stated.  On the code sequence
`[0xFFFF, 0x0041]` decoding stops at the terminator at index 0 with exactly
one code unit (not more than one) remaining after it, yet the trailing-data
warning is emitted. -/
theorem C7_counterexample :
    decode_message_to_string cmEmpty [0xFFFF, 0x41] false
        = some ⟨[], [Warn.trailing 1], 0, true⟩ ∧
    ([0xFFFF, 0x41] : List Nat).length - (0 + 1) = 1 := by
  constructor
  · rw [decode_message_to_string, decodeMsgLoop]
    rfl
  · rfl

/-- C7 (amended): when message decoding returns with the loop stopped at a
`0xFFFF` terminator, a trailing-data warning is present if and only if at
least one code unit (not: more than one) remains after the terminator; the
trailing data is ignored and the text is still returned. -/
theorem C7_trailing_warning_iff (cm : Charmap) (codes : List Nat) (fmt : Bool)
    (r : MsgLoopOut) (h : decode_message_to_string cm codes fmt = some r)
    (hterm : r.atTerm = true) :
    (∃ n, Warn.trailing n ∈ r.warns) ↔ 1 ≤ codes.length - (r.stopIdx + 1) := by
  unfold decode_message_to_string at h
  cases h0 : decodeMsgLoop cm codes fmt 0 with
  | none => rw [h0] at h; exact Option.noConfusion h
  | some r0 =>
    rw [h0] at h
    simp only [Option.map_some'] at h
    have hnt := decodeMsgLoop_no_trailing cm codes fmt codes.length 0 r0 (by omega) h0
    by_cases hc : r0.stopIdx + 1 < codes.length
    · rw [if_pos hc] at h
      rw [Option.some.injEq] at h
      subst h
      refine iff_of_true ⟨codes.length - (r0.stopIdx + 1), ?_⟩ (by simp; omega)
      simp
    · rw [if_neg hc] at h
      rw [Option.some.injEq] at h
      subst h
      refine iff_of_false ?_ (by omega)
      rintro ⟨n, hn⟩
      exact hnt n hn

theorem C7_trailing_warning_iff_witness :
    (∃ n, Warn.trailing n ∈ (MsgLoopOut.mk [] [Warn.trailing 2] 0 true).warns) ↔
      1 ≤ ([0xFFFF, 0, 0] : List Nat).length
          - ((MsgLoopOut.mk [] [Warn.trailing 2] 0 true).stopIdx + 1) :=
  C7_trailing_warning_iff cmEmpty [0xFFFF, 0, 0] false ⟨[], [Warn.trailing 2], 0, true⟩
    (by rw [decode_message_to_string, decodeMsgLoop]; rfl) rfl

/-- The pieces produced by the marker-splitting loop concatenate back to the
accumulator followed by the rest of the input. -/
theorem splitLoop_flatten (rest : List Char) :
    ∀ cur, (splitLoop rest cur).flatten = cur ++ rest := by
  induction rest with
  | nil =>
    intro cur
    by_cases h : cur = [] <;> simp [splitLoop, h]
  | cons c rest ih =>
    intro cur
    simp only [splitLoop]
    split
    · simp [ih]
    · simp [ih (cur ++ [c])]

/-- C8 (amended): reading JSON content back always reconstructs the message
exactly, and the content is an array exactly when the marker split yields a
number of pieces different from one (an empty message yields an empty array;
a message that is exactly one marker-terminated piece, such as `"\n"` alone,
stays a plain string even though it contains a marker). -/
theorem C8_line_split (msg : List Char) :
    contentText (jsonContent msg) = msg ∧
    ((∃ ls, jsonContent msg = MessageContent.multi ls) ↔
      (splitMarkers msg).length ≠ 1) := by
  unfold jsonContent
  by_cases h : (splitMarkers msg).length = 1
  · rw [if_pos h]
    exact ⟨rfl, by simp [h]⟩
  · rw [if_neg h]
    refine ⟨?_, by simp [h]⟩
    simpa [contentText, splitMarkers] using splitLoop_flatten msg []

/-- C8: counterexample to the claim as stated: the message consisting of the
single marker `\n` contains a marker, yet its JSON content is a plain
string, not an array. -/
theorem C8_counterexample :
    containsMarker ("\\n".data) = true ∧
    jsonContent ("\\n".data) = MessageContent.single ("\\n".data) := by
  constructor
  · decide
  · rfl

/-- Warnings produced by the trainer-name packing loop: exactly one warning
per character missing from `encode_map`, in order. -/
theorem trainerLoop_warns (cm : Charmap) : ∀ (name : List Char) (bit cur : Nat),
    (trainerLoop cm name bit cur).2 =
      (name.filter fun c => (alookup cm.encode_map [c]).isNone).map
        Warn.unknownTrainerChar := by
  intro name
  induction name with
  | nil => intro bit cur; simp [trainerLoop]
  | cons c rest ih =>
    intro bit cur
    cases hl : alookup cm.encode_map [c] with
    | some k =>
      simp only [trainerLoop, hl]
      split <;> simp [ih, List.filter_cons, hl]
    | none =>
      simp only [trainerLoop, hl]
      split <;> simp [ih, List.filter_cons, hl]

/-- C9 (amended): the packing of a single character depends only on its code
modulo 512 (the code is masked with `0x1FF` when placed at the current bit
offset), and a character is warned about exactly when it is absent from
`encode_map` (a mapped character with code `0x200` or greater packs silently);
but across a 15-bit word boundary the carry uses the unmasked code, so for
longer names the packed words need not equal those of the masked codes. -/
theorem C9_trainer_mask :
    (∀ code : Nat, packLoop [code] 0 0 = packLoop [code % 512] 0 0) ∧
    (∀ (cm : Charmap) (name : List Char),
      (encode_trainer_name cm name).2 =
        (name.filter fun c => (alookup cm.encode_map [c]).isNone).map
          Warn.unknownTrainerChar) := by
  constructor
  · intro code
    have h511 : ∀ x : Nat, x &&& 511 = x % 512 := fun x =>
      Nat.and_pow_two_sub_one_eq_mod x 9
    have hmm : code % 512 % 512 = code % 512 := Nat.mod_mod_of_dvd code dvd_rfl
    simp [packLoop, h511, hmm]
  · intro cm name
    simp [encode_trainer_name, trainerLoop_warns]

/-- C9: counterexample to the claim as stated: with `a → 0` and `b → 0x2FF`,
packing the trainer name `"aba"` does not equal the `0xF100`-marked packing
of the codes reduced modulo 512 — the high bits of `0x2FF` leak into the
carry word — even though (as the claim says) no warning is produced. -/
theorem C9_counterexample :
    (encode_trainer_name cmHigh ("aba".data)).1 ≠
      0xF100 :: packLoop [0 % 512, 0x2FF % 512, 0 % 512] 0 0 ∧
    (encode_trainer_name cmHigh ("aba".data)).2 = [] := by
  constructor
  · decide
  · decide

def isKeyLine (l : List Char) : Bool := ("// Key: ".data).isPrefixOf l

def isCommentLine (l : List Char) : Bool := ("//".data).isPrefixOf (trimStart l)

/-- The key value the scan is left with: the last `// Key: `-marked line wins
(0 when there is none). -/
def lastKeyVal (lines : List (List Char)) : Nat :=
  match (lines.filter isKeyLine).getLast? with
  | some l => parse_hex_or_decimal (trim (l.drop 8)) % 65536
  | none => 0

/-- Prepending a key line to the scan input: it wins only when no later key
line exists. -/
theorem lastKeyVal_cons_key (l : List Char) (rest : List (List Char))
    (hk : isKeyLine l = true) :
    lastKeyVal (l :: rest) =
      if rest.filter isKeyLine = [] then
        parse_hex_or_decimal (trim (l.drop 8)) % 65536
      else lastKeyVal rest := by
  unfold lastKeyVal
  rw [List.filter_cons, if_pos hk]
  cases hrf : rest.filter isKeyLine with
  | nil => simp
  | cons x xs => simp [List.getLast?_cons_cons]

theorem encodeTextScan_go (lines : List (List Char)) : ∀ (k : Nat) (ms : List (List Char)),
    lines.foldl
      (fun acc line =>
        if ("// Key: ".data).isPrefixOf line then
          (parse_hex_or_decimal (trim (line.drop 8)) % 65536, acc.2)
        else if ("//".data).isPrefixOf (trimStart line) then acc
        else (acc.1, acc.2 ++ [line]))
      (k, ms)
    = ((if (lines.filter isKeyLine) = [] then k else lastKeyVal lines),
       ms ++ lines.filter fun l => !isKeyLine l && !isCommentLine l) := by
  induction lines with
  | nil => intro k ms; simp
  | cons l rest ih =>
    intro k ms
    by_cases h1 : ("// Key: ".data).isPrefixOf l
    · simp only [List.foldl_cons, if_pos h1, ih]
      have hk : isKeyLine l = true := h1
      rw [lastKeyVal_cons_key l rest hk]
      simp [List.filter_cons, hk]
    · simp only [List.foldl_cons, if_neg h1]
      have hk : isKeyLine l = false := Bool.eq_false_iff.mpr h1
      have hlk : lastKeyVal (l :: rest) = lastKeyVal rest := by
        unfold lastKeyVal
        rw [List.filter_cons, if_neg (by simp [hk])]
      by_cases h2 : ("//".data).isPrefixOf (trimStart l)
      · simp only [if_pos h2, ih]
        have hc : isCommentLine l = true := h2
        simp [List.filter_cons, hk, hc, hlk]
      · simp only [if_neg h2, ih]
        have hc : isCommentLine l = false := Bool.eq_false_iff.mpr h2
        simp [List.filter_cons, hk, hc, hlk]

/-- C10: in `encode_text`, any line with the `// Key: ` marker — wherever it
occurs — (re)assigns the archive key, the last one winning; such lines are
never messages and are not dropped as ordinary comments (the key test runs
first); all other `//`-prefixed lines are dropped and the rest are the
messages, in order. -/
theorem C10_key_line_scan (lines : List (List Char)) :
    encodeTextScan lines =
      (lastKeyVal lines,
       lines.filter fun l => !isKeyLine l && !isCommentLine l) := by
  unfold encodeTextScan
  rw [encodeTextScan_go lines 0 []]
  simp only [List.nil_append]
  by_cases h : lines.filter isKeyLine = []
  · simp [h, lastKeyVal]
  · simp [h]

/-- `x &&& 0x1FF` is reduction mod 512. -/
theorem and511 (x : Nat) : x &&& 511 = x % 512 := Nat.and_pow_two_sub_one_eq_mod x 9

/-- `x &&& 0x7FFF` is reduction mod 32768. -/
theorem and32767 (x : Nat) : x &&& 32767 = x % 32768 := Nat.and_pow_two_sub_one_eq_mod x 15

/-- OR-ing a value below `2^k` with a multiple of `2^k` is addition. -/
theorem lor_two_pow_mul (k a b : Nat) (ha : a < 2 ^ k) :
    a ||| 2 ^ k * b = a + 2 ^ k * b := by
  apply Nat.eq_of_testBit_eq
  intro j
  rw [Nat.testBit_lor, Nat.add_comm, Nat.testBit_mul_pow_two_add b ha j,
    Nat.testBit_mul_pow_two]
  by_cases hj : j < k
  · simp [hj, Nat.not_le.mpr hj]
  · have hle : k ≤ j := Nat.le_of_not_lt hj
    have hzero : a.testBit j = false :=
      Nat.testBit_lt_two_pow (lt_of_lt_of_le ha (Nat.pow_le_pow_right (by norm_num) hle))
    simp [hj, hzero, hle]

/-- OR of values with disjoint binary support (below/above bit `k`) is
addition. -/
theorem lor_eq_add {a b m : Nat} (k : Nat) (hm : m = 2 ^ k) (ha : a < m)
    (hb : b % m = 0) : a ||| b = a + b := by
  subst hm
  obtain ⟨q, rfl⟩ := Nat.dvd_of_mod_eq_zero hb
  exact lor_two_pow_mul k a q ha

/-- `unpackLoop` at window offset 0: plain read of the low 9 bits. -/
theorem unpack0_term (w : Nat) (rest : List Nat)
    (ht : w &&& 0x1FF = 0x1FF) :
    unpackLoop (w :: rest) 0 = ([], 0) := by
  rw [unpackLoop]
  simp [ht]

theorem unpack0_fst (w : Nat) (rest : List Nat)
    (ht : w &&& 0x1FF ≠ 0x1FF) :
    (unpackLoop (w :: rest) 0).1 =
      (w &&& 0x1FF) :: (unpackLoop (w :: rest) 9).1 := by
  rw [unpackLoop]
  simp [ht]

/-- `unpackLoop` at window offset 3: plain read of bits 3..11. -/
theorem unpack3_term (w : Nat) (rest : List Nat)
    (ht : (w >>> 3) &&& 0x1FF = 0x1FF) :
    unpackLoop (w :: rest) 3 = ([], 0) := by
  rw [unpackLoop]
  simp [ht]

theorem unpack3_fst (w : Nat) (rest : List Nat)
    (ht : (w >>> 3) &&& 0x1FF ≠ 0x1FF) :
    (unpackLoop (w :: rest) 3).1 =
      ((w >>> 3) &&& 0x1FF) :: (unpackLoop (w :: rest) 12).1 := by
  rw [unpackLoop]
  simp [ht]

/-- `unpackLoop` at window offset 6: the window ends exactly at bit 15, so
the word is flushed and no combine with the next word happens. -/
theorem unpack6_term (w : Nat) (rest : List Nat)
    (ht : (w >>> 6) &&& 0x1FF = 0x1FF) :
    unpackLoop (w :: rest) 6 = ([], 1) := by
  rw [unpackLoop]
  simp [ht]

theorem unpack6_fst (w : Nat) (rest : List Nat)
    (ht : (w >>> 6) &&& 0x1FF ≠ 0x1FF) :
    (unpackLoop (w :: rest) 6).1 =
      ((w >>> 6) &&& 0x1FF) :: (unpackLoop rest 0).1 := by
  rw [unpackLoop]
  simp [ht]

/-- `unpackLoop` at window offset 9: flush, then pull the low 3 bits of the
next word into bits 6..8 of the value. -/
theorem unpack9_term (w : Nat) (rest : List Nat) (hr : rest ≠ [])
    (ht : ((w >>> 9) &&& 0x1FF) ||| (((rest.head?.getD 0 <<< 6) % 65536) &&& 0x1FF)
        = 0x1FF) :
    unpackLoop (w :: rest) 9 = ([], 1) := by
  rw [unpackLoop]
  simp [hr, ht]

theorem unpack9_fst (w : Nat) (rest : List Nat) (hr : rest ≠ [])
    (ht : ((w >>> 9) &&& 0x1FF) ||| (((rest.head?.getD 0 <<< 6) % 65536) &&& 0x1FF)
        ≠ 0x1FF) :
    (unpackLoop (w :: rest) 9).1 =
      (((w >>> 9) &&& 0x1FF) ||| (((rest.head?.getD 0 <<< 6) % 65536) &&& 0x1FF)) ::
        (unpackLoop rest 3).1 := by
  rw [unpackLoop]
  simp [hr, ht]

/-- `unpackLoop` at window offset 12: flush, then pull the low 6 bits of the
next word into bits 3..8 of the value. -/
theorem unpack12_term (w : Nat) (rest : List Nat) (hr : rest ≠ [])
    (ht : ((w >>> 12) &&& 0x1FF) ||| (((rest.head?.getD 0 <<< 3) % 65536) &&& 0x1FF)
        = 0x1FF) :
    unpackLoop (w :: rest) 12 = ([], 1) := by
  rw [unpackLoop]
  simp [hr, ht]

theorem unpack12_fst (w : Nat) (rest : List Nat) (hr : rest ≠ [])
    (ht : ((w >>> 12) &&& 0x1FF) ||| (((rest.head?.getD 0 <<< 3) % 65536) &&& 0x1FF)
        ≠ 0x1FF) :
    (unpackLoop (w :: rest) 12).1 =
      (((w >>> 12) &&& 0x1FF) ||| (((rest.head?.getD 0 <<< 3) % 65536) &&& 0x1FF)) ::
        (unpackLoop rest 6).1 := by
  rw [unpackLoop]
  simp [hr, ht]

/-- The low `bit` bits of the next word the packer will emit (terminator word
included) are exactly the current accumulator. -/
theorem packLoop_head_mod : ∀ (codes : List Nat) (bit cur : Nat),
    (bit = 0 ∨ bit = 3 ∨ bit = 6 ∨ bit = 9 ∨ bit = 12) → cur < 2 ^ bit →
    ((packLoop codes bit cur ++ [0xFFFF]).headD 0) % 2 ^ bit = cur := by
  intro codes
  induction codes with
  | nil =>
    intro bit cur hbit hcur
    rcases hbit with rfl | rfl | rfl | rfl | rfl
    · simp [packLoop]
      omega
    all_goals simp only [packLoop, Nat.shiftLeft_eq, and32767]
    all_goals rw [if_pos (by norm_num)]
    all_goals simp only [List.cons_append, List.headD_cons]
    all_goals rw [lor_eq_add _ rfl hcur (by omega)]
    all_goals omega
  | cons c rest ih =>
    intro bit cur hbit hcur
    rcases hbit with rfl | rfl | rfl | rfl | rfl
    · omega
    · simp only [packLoop, Nat.shiftLeft_eq, and511]
      rw [lor_eq_add 3 rfl hcur (by omega)]
      rw [if_neg (by norm_num)]
      have hlt : cur + c % 512 * 2 ^ 3 % 65536 < 2 ^ 12 := by omega
      have hh := ih (3 + 9) (cur + c % 512 * 2 ^ 3 % 65536) (by omega) hlt
      rw [← Nat.mod_mod_of_dvd _ (Nat.pow_dvd_pow 2 (by omega : 3 ≤ 12))]
      rw [show (2:Nat) ^ 12 = 2 ^ (3 + 9) from by norm_num, hh]
      omega
    all_goals simp only [packLoop, Nat.shiftLeft_eq, and511]
    all_goals rw [lor_eq_add _ rfl hcur (by omega)]
    all_goals rw [if_pos (by norm_num)]
    all_goals simp only [List.cons_append, List.headD_cons, and32767]
    all_goals omega

/-- Packing a code sequence at any reachable window alignment and then reading
it back with the decoder loop recovers the sequence exactly, provided the
packed words are followed by one further code unit with all low bits set
(such as the `0xFFFF` message terminator): the decoder's cross-word combine
then completes the `0x1FF` terminator pattern at every alignment. -/
theorem trainer_unpack_pack : ∀ (codes : List Nat) (bit cur : Nat),
    (bit = 0 ∨ bit = 3 ∨ bit = 6 ∨ bit = 9 ∨ bit = 12) → cur < 2 ^ bit →
    (∀ c ∈ codes, c ≤ 0x1FE) →
    (unpackLoop (packLoop codes bit cur ++ [0xFFFF]) bit).1 = codes := by
  intro codes
  induction codes with
  | nil =>
    intro bit cur hbit hcur _
    rcases hbit with rfl | rfl | rfl | rfl | rfl
    · simp only [packLoop]
      rw [if_neg (by norm_num)]
      simp only [List.nil_append]
      rw [unpack0_term 0xFFFF [] (by decide)]
    · simp only [packLoop, Nat.shiftLeft_eq, and32767, List.nil_append]
      rw [if_pos (by norm_num)]
      rw [lor_eq_add 3 rfl hcur (by omega)]
      simp only [List.cons_append, List.nil_append]
      rw [unpack3_term _ _ (by rw [Nat.shiftRight_eq_div_pow, and511]; omega)]
    · simp only [packLoop, Nat.shiftLeft_eq, and32767, List.nil_append]
      rw [if_pos (by norm_num)]
      rw [lor_eq_add 6 rfl hcur (by omega)]
      simp only [List.cons_append, List.nil_append]
      rw [unpack6_term _ _ (by rw [Nat.shiftRight_eq_div_pow, and511]; omega)]
    · simp only [packLoop, Nat.shiftLeft_eq, and32767, List.nil_append]
      rw [if_pos (by norm_num)]
      rw [lor_eq_add 9 rfl hcur (by omega)]
      simp only [List.cons_append, List.nil_append]
      rw [unpack9_term _ _ (by simp) ?ht9]
      case ht9 =>
        simp only [List.head?_cons, Option.getD_some, Nat.shiftLeft_eq,
          Nat.shiftRight_eq_div_pow, and511]
        rw [lor_eq_add 6 rfl (by omega) (by omega)]
        omega
    · simp only [packLoop, Nat.shiftLeft_eq, and32767, List.nil_append]
      rw [if_pos (by norm_num)]
      rw [lor_eq_add 12 rfl hcur (by omega)]
      simp only [List.cons_append, List.nil_append]
      rw [unpack12_term _ _ (by simp) ?ht12]
      case ht12 =>
        simp only [List.head?_cons, Option.getD_some, Nat.shiftLeft_eq,
          Nat.shiftRight_eq_div_pow, and511]
        rw [lor_eq_add 3 rfl (by omega) (by omega)]
        omega
  | cons c rest ih =>
    intro bit cur hbit hcur hcodes
    have hc : c ≤ 0x1FE := hcodes c (List.mem_cons_self c rest)
    have hrest : ∀ x ∈ rest, x ≤ 0x1FE := fun x hx => hcodes x (List.mem_cons_of_mem c hx)
    rcases hbit with rfl | rfl | rfl | rfl | rfl
    · have hcur0 : cur = 0 := by omega
      subst hcur0
      simp only [packLoop, Nat.shiftLeft_eq, and511, Nat.zero_or]
      rw [if_neg (by norm_num)]
      simp only [Nat.zero_add]
      have hne : packLoop rest 9 (c % 512 * 2 ^ 0 % 65536) ++ [0xFFFF] ≠ [] := by simp
      obtain ⟨h0, L, hL⟩ := List.exists_cons_of_ne_nil hne
      have hhead := packLoop_head_mod rest 9 (c % 512 * 2 ^ 0 % 65536) (by omega) (by omega)
      rw [hL] at hhead
      simp only [List.headD_cons] at hhead
      rw [hL]
      rw [unpack0_fst h0 L (by rw [and511]; omega)]
      refine congrArg₂ List.cons ?_ ?_
      · rw [and511]; omega
      · rw [← hL]
        exact ih 9 _ (by omega) (by omega) hrest
    · simp only [packLoop, Nat.shiftLeft_eq, and511]
      rw [lor_eq_add 3 rfl hcur (by omega)]
      rw [if_neg (by norm_num)]
      have hne : packLoop rest (3 + 9) (cur + c % 512 * 2 ^ 3 % 65536) ++ [0xFFFF] ≠ [] := by
        simp
      obtain ⟨h0, L, hL⟩ := List.exists_cons_of_ne_nil hne
      have hhead := packLoop_head_mod rest (3 + 9) (cur + c % 512 * 2 ^ 3 % 65536)
        (by omega) (by omega)
      rw [hL] at hhead
      simp only [List.headD_cons] at hhead
      rw [hL]
      rw [unpack3_fst h0 L (by rw [Nat.shiftRight_eq_div_pow, and511]; omega)]
      refine congrArg₂ List.cons ?_ ?_
      · rw [Nat.shiftRight_eq_div_pow, and511]; omega
      · rw [← hL]
        exact ih 12 _ (by omega) (by omega) hrest
    · simp only [packLoop, Nat.shiftLeft_eq, Nat.shiftRight_eq_div_pow, and511, and32767]
      rw [lor_eq_add 6 rfl hcur (by omega)]
      rw [if_pos (by norm_num)]
      simp only [List.cons_append]
      rw [unpack6_fst _ _ (by rw [Nat.shiftRight_eq_div_pow, and511]; omega)]
      refine congrArg₂ List.cons ?_ ?_
      · rw [Nat.shiftRight_eq_div_pow, and511]; omega
      · exact ih (6 + 9 - 15) _ (by omega) (by omega) hrest
    · simp only [packLoop, Nat.shiftLeft_eq, Nat.shiftRight_eq_div_pow, and511, and32767]
      rw [lor_eq_add 9 rfl hcur (by omega)]
      rw [if_pos (by norm_num)]
      simp only [List.cons_append]
      have hne : packLoop rest (9 + 9 - 15) (c / 2 ^ (9 - (9 + 9 - 15)) % 512) ++ [0xFFFF]
          ≠ [] := by simp
      have hhead := packLoop_head_mod rest (9 + 9 - 15) (c / 2 ^ (9 - (9 + 9 - 15)) % 512)
        (by omega) (by omega)
      rw [List.headD_eq_head?_getD] at hhead
      rw [unpack9_fst _ _ hne ?hne9]
      case hne9 =>
        rw [Nat.shiftRight_eq_div_pow, Nat.shiftLeft_eq, and511, and511]
        rw [lor_eq_add 6 rfl (by omega) (by omega)]
        omega
      refine congrArg₂ List.cons ?_ ?_
      · rw [Nat.shiftRight_eq_div_pow, Nat.shiftLeft_eq, and511, and511]
        rw [lor_eq_add 6 rfl (by omega) (by omega)]
        omega
      · exact ih (9 + 9 - 15) _ (by omega) (by omega) hrest
    · simp only [packLoop, Nat.shiftLeft_eq, Nat.shiftRight_eq_div_pow, and511, and32767]
      rw [lor_eq_add 12 rfl hcur (by omega)]
      rw [if_pos (by norm_num)]
      simp only [List.cons_append]
      have hne : packLoop rest (12 + 9 - 15) (c / 2 ^ (9 - (12 + 9 - 15)) % 512) ++ [0xFFFF]
          ≠ [] := by simp
      have hhead := packLoop_head_mod rest (12 + 9 - 15) (c / 2 ^ (9 - (12 + 9 - 15)) % 512)
        (by omega) (by omega)
      rw [List.headD_eq_head?_getD] at hhead
      rw [unpack12_fst _ _ hne ?hne12]
      case hne12 =>
        rw [Nat.shiftRight_eq_div_pow, Nat.shiftLeft_eq, and511, and511]
        rw [lor_eq_add 3 rfl (by omega) (by omega)]
        omega
      refine congrArg₂ List.cons ?_ ?_
      · rw [Nat.shiftRight_eq_div_pow, Nat.shiftLeft_eq, and511, and511]
        rw [lor_eq_add 3 rfl (by omega) (by omega)]
        omega
      · exact ih (12 + 9 - 15) _ (by omega) (by omega) hrest

/-- C5 (corrected): for every sequence of trainer-name character codes each in
[0, 0x1FE], packing with the packing loop of `encode_trainer_name` and then
reading back with the reading loop of `decode_trainer_name` yields exactly the
original code sequence — provided one further code unit with all low bits set
(such as the `0xFFFF` message terminator that follows a trainer name inside an
encoded message) comes after the packed words.  The unqualified claim is
false: fed to the decoder standalone, a packed sequence whose final window
alignment is 9 or 12 decodes with a spurious extra code (see the
counterexample for codes `[0x10]`). -/
theorem C5_trainer_round_trip (codes : List Nat) (hc : ∀ c ∈ codes, c ≤ 0x1FE) :
    (unpackLoop (packLoop codes 0 0 ++ [0xFFFF]) 0).1 = codes :=
  trainer_unpack_pack codes 0 0 (Or.inl rfl) (by norm_num) hc

/-- Witness for C5 at the codes of the spec scenario (`0x0010, 0x0020`): the
hypothesis holds and the packed words, followed by the message terminator,
decode back to exactly those two codes. -/
theorem C5_trainer_round_trip_witness :
    (∀ c ∈ [0x10, 0x20], c ≤ 0x1FE) ∧
    (unpackLoop (packLoop [0x10, 0x20] 0 0 ++ [0xFFFF]) 0).1 = [0x10, 0x20] :=
  ⟨by decide, C5_trainer_round_trip [0x10, 0x20] (by decide)⟩

/-- C5 counterexample: the single code sequence `[0x10]` (every code in
[0, 0x1FE]), packed by `encode_trainer_name` and read back standalone by the
reading loop of `decode_trainer_name`, does not decode to `[0x10]`: the final
window alignment is 9, the combine with a next word cannot happen, and the
decoder reads the spurious code `0x3F` from the terminator word before
stopping. -/
theorem C5_counterexample :
    (unpackLoop ((encode_trainer_name cmTrainer ['a']).1.drop 1) 0).1 ≠ [0x10] := by
  have h1 : (encode_trainer_name cmTrainer ['a']).1.drop 1 = [0x7E10] := by decide
  rw [h1]
  have h2 : unpackLoop [0x7E10] 9 = ([0x3F], 1) := by
    rw [unpackLoop]
    norm_num
    rw [unpackLoop]
    decide
  rw [unpackLoop]
  norm_num
  rw [h2]
  decide

/-- Unpacking `goodCode`. -/
theorem goodCode_spec (cm : Charmap) (c : Char) (h : goodCode cm c = true) :
    alookup cm.encode_map [c] = some (codeOf cm c) ∧ codeOf cm c < 65536 ∧
    codeOf cm c ≠ 0xFFFF ∧ codeOf cm c ≠ 0xFFFE ∧ codeOf cm c ≠ 0xF100 ∧
    alookup cm.decode_map (codeOf cm c) = some [c] := by
  unfold goodCode at h
  unfold codeOf
  cases hl : alookup cm.encode_map [c] with
  | none => rw [hl] at h; simp at h
  | some k =>
    rw [hl] at h
    simp only [decide_eq_true_eq] at h
    simpa using h

/-- On a message of `goodCode` characters the encoding loop degrades to a
plain per-character `encode_map` lookup, with no warnings. -/
theorem encodeMsgLoop_good (cm : Charmap) (fmt : Bool) : ∀ (text : List Char),
    (∀ c ∈ text, goodCode cm c = true) →
    encodeMsgLoop cm fmt text = some (text.map (codeOf cm), []) := by
  intro text
  induction text with
  | nil => intro _; rw [encodeMsgLoop]; rfl
  | cons c rest ih =>
    intro h
    have hg := goodCode_spec cm c (h c (List.mem_cons_self c rest))
    have ht := ih (fun x hx => h x (List.mem_cons_of_mem c hx))
    cases rest with
    | nil => rw [encodeMsgLoop, hg.1, ht]; rfl
    | cons c2 rest2 => rw [encodeMsgLoop, hg.1, ht]; rfl

/-- `encode_string_to_message` on a message of `goodCode` characters. -/
theorem encode_string_good (cm : Charmap) (fmt : Bool) (m : List Char)
    (h : ∀ c ∈ m, goodCode cm c = true) :
    encode_string_to_message cm m fmt = some (msgCodes cm m, []) := by
  rw [encode_string_to_message, encodeMsgLoop_good cm fmt m h]
  rfl

/-- `encodeAll` on messages of `goodCode` characters. -/
theorem encodeAll_good (cm : Charmap) (fmt : Bool) : ∀ (texts : List (List Char)) (i : Nat),
    (∀ m ∈ texts, ∀ c ∈ m, goodCode cm c = true) →
    encodeAll cm fmt texts i = some (encBodies cm texts i) := by
  intro texts
  induction texts with
  | nil => intro i _; rfl
  | cons m rest ih =>
    intro i h
    simp only [encodeAll, encBodies]
    rw [encode_string_good cm fmt m (h m (List.mem_cons_self m rest)),
      ih (i + 1) (fun x hx => h x (List.mem_cons_of_mem m hx))]
    rfl

/-- The keystream XOR preserves length. -/
theorem xorStream_length : ∀ (l : List Nat) (k : Nat), (xorStream l k).length = l.length := by
  intro l
  induction l with
  | nil => intro k; rfl
  | cons c rest ih => intro k; simp [xorStream, ih]

/-- The keystream XOR is an involution (same starting key). -/
theorem xorStream_invol : ∀ (l : List Nat) (k : Nat), xorStream (xorStream l k) k = l := by
  intro l
  induction l with
  | nil => intro k; rfl
  | cons c rest ih => intro k; simp [xorStream, ih, Nat.xor_cancel_right]

/-- The keystream XOR keeps code units within `u16` range. -/
theorem xorStream_lt : ∀ (l : List Nat) (k : Nat), (∀ c ∈ l, c < 65536) → k < 65536 →
    ∀ c ∈ xorStream l k, c < 65536 := by
  intro l
  induction l with
  | nil => intro k _ _ c hc; simp [xorStream] at hc
  | cons a rest ih =>
    intro k hl hk c hc
    simp only [xorStream, List.mem_cons] at hc
    rcases hc with rfl | hc
    · have ha : a < 65536 := hl a (List.mem_cons_self a rest)
      have : a ^^^ k < 2 ^ 16 :=
        Nat.xor_lt_two_pow (by omega) (by omega)
      omega
    · exact ih ((k + 18749) % 65536) (fun x hx => hl x (List.mem_cons_of_mem a hx))
        (Nat.mod_lt _ (by norm_num)) c hc

/-- Every code unit of a `goodCode` message (terminator included) fits `u16`. -/
theorem msgCodes_lt (cm : Charmap) (m : List Char)
    (h : ∀ c ∈ m, goodCode cm c = true) : ∀ k ∈ msgCodes cm m, k < 65536 := by
  intro k hk
  simp only [msgCodes, List.mem_append, List.mem_map, List.mem_singleton] at hk
  rcases hk with ⟨c, hc, rfl⟩ | rfl
  · exact (goodCode_spec cm c (h c hc)).2.1
  · norm_num

/-- Lengths of the encrypted bodies: one code per character plus the
terminator. -/
theorem encBodies_lengths (cm : Charmap) : ∀ (texts : List (List Char)) (i : Nat),
    (encBodies cm texts i).map List.length = texts.map (fun m => m.length + 1) := by
  intro texts
  induction texts with
  | nil => intro i; rfl
  | cons m rest ih =>
    intro i
    simp [encBodies, encrypt_message, xorStream_length, msgCodes, ih]

/-- `encBodies` produces one body per message. -/
theorem encBodies_length (cm : Charmap) : ∀ (texts : List (List Char)) (i : Nat),
    (encBodies cm texts i).length = texts.length := by
  intro texts
  induction texts with
  | nil => intro i; rfl
  | cons m rest ih => intro i; simp [encBodies, ih]

/-- Reading a `u16` back from its little-endian bytes. -/
theorem readU16_u16 (x : Nat) (rest : List Nat) :
    readU16 (u16ToBytes x ++ rest) 0 = some (x % 65536) := by
  simp only [readU16, u16ToBytes, List.cons_append, List.getElem?_cons_zero,
    List.getElem?_cons_succ]
  congr 1
  omega

/-- Skipping one serialized `u16` (two bytes) at the front. -/
theorem readU16_skip2 (a b : Nat) (l : List Nat) :
    readU16 (a :: b :: l) 2 = readU16 l 0 := by
  simp [readU16]

/-- Reading past a known prefix. -/
theorem readU16_append (pre l : List Nat) (p : Nat) :
    readU16 (pre ++ l) (pre.length + p) = readU16 l p := by
  unfold readU16
  rw [List.getElem?_append_right (by omega), List.getElem?_append_right (by omega)]
  have h1 : pre.length + p - pre.length = p := by omega
  have h2 : pre.length + p + 1 - pre.length = p + 1 := by omega
  rw [h1, h2]

/-- Reading past a known prefix, `u32` version. -/
theorem readU32_append (pre l : List Nat) (p : Nat) :
    readU32 (pre ++ l) (pre.length + p) = readU32 l p := by
  unfold readU32
  have h2 : pre.length + p + 2 = pre.length + (p + 2) := by omega
  rw [readU16_append, h2, readU16_append]

/-- Reading a `u32` back from its little-endian bytes. -/
theorem readU32_u32 (x : Nat) (rest : List Nat) :
    readU32 (u32ToBytes x ++ rest) 0 = some (x % 4294967296) := by
  simp only [readU32, readU16, u32ToBytes, List.cons_append, List.getElem?_cons_zero,
    List.getElem?_cons_succ]
  congr 1
  omega

/-- Serialized code units occupy two bytes each. -/
theorem flatMap_u16_len : ∀ (codes : List Nat),
    (codes.flatMap u16ToBytes).length = 2 * codes.length := by
  intro codes
  induction codes with
  | nil => rfl
  | cons c rest ih =>
    simp only [List.flatMap_cons, List.length_append, List.length_cons, ih, u16ToBytes]
    simp
    omega

/-- The body-reading loop reads back exactly the serialized code units. -/
theorem readCodes_flat : ∀ (codes : List Nat) (pre post : List Nat),
    (∀ c ∈ codes, c < 65536) →
    readCodes (pre ++ (codes.flatMap u16ToBytes ++ post)) pre.length codes.length
      = some codes := by
  intro codes
  induction codes with
  | nil => intro pre post _; simp [readCodes]
  | cons c cs ih =>
    intro pre post h
    have hc : c < 65536 := h c (List.mem_cons_self c cs)
    simp only [List.flatMap_cons, List.length_cons, List.append_assoc]
    rw [readCodes]
    have h1 : readU16 (pre ++ (u16ToBytes c ++ (cs.flatMap u16ToBytes ++ post)))
        pre.length = some c := by
      have := readU16_append pre (u16ToBytes c ++ (cs.flatMap u16ToBytes ++ post)) 0
      rw [Nat.add_zero] at this
      rw [this, readU16_u16, Nat.mod_eq_of_lt hc]
    rw [h1]
    have h2 := ih (pre ++ u16ToBytes c) post (fun x hx => h x (List.mem_cons_of_mem c hx))
    have hlen : (pre ++ u16ToBytes c).length = pre.length + 2 := by
      simp [u16ToBytes]
    rw [hlen, List.append_assoc] at h2
    rw [h2]
    rfl

/-- The per-entry `u32` mask fits in `u32`. -/
theorem localMask_lt (i key : Nat) : localMask i key < 4294967296 := by
  simp only [localMask, Nat.shiftLeft_eq]
  have ha : 765 * i % 4294967296 * key % 4294967296 &&& 65535 ≤ 65535 := Nat.and_le_right
  have h1 : 765 * i % 4294967296 * key % 4294967296 &&& 65535 < 2 ^ 32 := by omega
  have h2 : (765 * i % 4294967296 * key % 4294967296 &&& 65535) * 2 ^ 16 % 4294967296
      < 2 ^ 32 := by omega
  have := Nat.or_lt_two_pow h1 h2
  omega

/-- Length of the serialized message table. -/
theorem tableBytes_length (key : Nat) : ∀ (entries : List (Nat × Nat)) (i : Nat),
    (tableBytes key entries i).length = 8 * entries.length := by
  intro entries
  induction entries with
  | nil => intro i; rfl
  | cons e rest ih =>
    intro i
    obtain ⟨off, len⟩ := e
    simp only [tableBytes, List.length_append, List.length_cons, ih, u32ToBytes]
    simp
    omega

/-- All entries laid out by `entriesFor` fit in `u32` when the implied total
size does. -/
theorem entriesFor_bound : ∀ (lens : List Nat) (base : Nat),
    base + 2 * lens.sum < 4294967296 →
    ∀ e ∈ entriesFor lens base, e.1 < 4294967296 ∧ e.2 < 4294967296 := by
  intro lens
  induction lens with
  | nil => intro base _ e he; simp [entriesFor] at he
  | cons l rest ih =>
    intro base hs e he
    simp only [List.sum_cons] at hs
    simp only [entriesFor, List.mem_cons] at he
    rcases he with rfl | he
    · constructor <;> omega
    · exact ih (base + 2 * l) (by omega) e he

/-- The table-reading loop inverts the table serialization: each masked
`(offset, length)` pair is read back and unmasked to the original entry. -/
theorem readTable_bytes (key : Nat) : ∀ (entries : List (Nat × Nat)) (i : Nat)
    (pre post : List Nat),
    pre.length = 4 + 8 * i →
    (∀ e ∈ entries, e.1 < 4294967296 ∧ e.2 < 4294967296) →
    key < 65536 →
    readTable (pre ++ (tableBytes key entries i ++ post)) key entries.length i
      = some entries := by
  intro entries
  induction entries with
  | nil => intro i pre post _ _ _; simp [readTable]
  | cons e rest ih =>
    intro i pre post hlen hb hkey
    obtain ⟨off, len⟩ := e
    have hoff : off < 4294967296 := (hb _ (List.mem_cons_self _ _)).1
    have hlenb : len < 4294967296 := (hb _ (List.mem_cons_self _ _)).2
    have hm : localMask (i + 1) key < 4294967296 := localMask_lt (i + 1) key
    simp only [tableBytes, List.length_cons, List.append_assoc]
    rw [readTable]
    have hxo : off ^^^ localMask (i + 1) key < 4294967296 := by
      have : off ^^^ localMask (i + 1) key < 2 ^ 32 :=
        Nat.xor_lt_two_pow (by omega) (by omega)
      omega
    have hxl : len ^^^ localMask (i + 1) key < 4294967296 := by
      have : len ^^^ localMask (i + 1) key < 2 ^ 32 :=
        Nat.xor_lt_two_pow (by omega) (by omega)
      omega
    have h1 : readU32 (pre ++ (u32ToBytes (off ^^^ localMask (i + 1) key) ++
        (u32ToBytes (len ^^^ localMask (i + 1) key) ++ (tableBytes key rest (i + 1) ++ post))))
        (4 + 8 * i) = some (off ^^^ localMask (i + 1) key) := by
      rw [← hlen]
      have := readU32_append pre (u32ToBytes (off ^^^ localMask (i + 1) key) ++
        (u32ToBytes (len ^^^ localMask (i + 1) key) ++ (tableBytes key rest (i + 1) ++ post))) 0
      simp only [Nat.add_zero] at this
      rw [this, readU32_u32, Nat.mod_eq_of_lt hxo]
    have h2 : readU32 (pre ++ (u32ToBytes (off ^^^ localMask (i + 1) key) ++
        (u32ToBytes (len ^^^ localMask (i + 1) key) ++ (tableBytes key rest (i + 1) ++ post))))
        (4 + 8 * i + 4) = some (len ^^^ localMask (i + 1) key) := by
      have hre : pre ++ (u32ToBytes (off ^^^ localMask (i + 1) key) ++
          (u32ToBytes (len ^^^ localMask (i + 1) key) ++ (tableBytes key rest (i + 1) ++ post)))
          = (pre ++ u32ToBytes (off ^^^ localMask (i + 1) key)) ++
            (u32ToBytes (len ^^^ localMask (i + 1) key) ++ (tableBytes key rest (i + 1) ++ post)) := by
        simp [List.append_assoc]
      rw [hre]
      have hplen : (pre ++ u32ToBytes (off ^^^ localMask (i + 1) key)).length
          = 4 + 8 * i + 4 := by
        simp [u32ToBytes, hlen]
      rw [← hplen]
      have := readU32_append (pre ++ u32ToBytes (off ^^^ localMask (i + 1) key))
        (u32ToBytes (len ^^^ localMask (i + 1) key) ++ (tableBytes key rest (i + 1) ++ post)) 0
      simp only [Nat.add_zero] at this
      rw [this, readU32_u32, Nat.mod_eq_of_lt hxl]
    rw [h1, h2]
    have h3 : pre ++ (u32ToBytes (off ^^^ localMask (i + 1) key) ++
        (u32ToBytes (len ^^^ localMask (i + 1) key) ++ (tableBytes key rest (i + 1) ++ post)))
        = (pre ++ u32ToBytes (off ^^^ localMask (i + 1) key) ++
            u32ToBytes (len ^^^ localMask (i + 1) key)) ++ (tableBytes key rest (i + 1) ++ post) := by
      simp [List.append_assoc]
    rw [h3]
    have h4 := ih (i + 1)
      (pre ++ u32ToBytes (off ^^^ localMask (i + 1) key) ++
        u32ToBytes (len ^^^ localMask (i + 1) key)) post
      (by simp [u32ToBytes, hlen]; omega)
      (fun x hx => hb x (List.mem_cons_of_mem _ hx)) hkey
    rw [h4]
    simp [Nat.xor_cancel_right]

/-- The offset shift of `encode_messages` turns the relative table into the
absolute `entriesFor` layout when the total size fits `u32`. -/
theorem buildTable_shift : ∀ (lens : List Nat) (off H : Nat),
    off + H + 2 * lens.sum < 4294967296 →
    (buildTable lens off).map (fun e => ((e.1 + H) % 4294967296, e.2))
      = entriesFor lens (off + H) := by
  intro lens
  induction lens with
  | nil => intro off H _; rfl
  | cons l rest ih =>
    intro off H hs
    simp only [List.sum_cons] at hs
    simp only [buildTable, entriesFor, List.map_cons]
    refine congrArg₂ List.cons ?_ ?_
    · have h1 : (off + H) % 4294967296 = off + H := by omega
      rw [h1]
    · have h2 : (off + l * 2) % 4294967296 = off + l * 2 := by omega
      rw [h2]
      have h3 := ih (off + l * 2) H (by omega)
      have h4 : off + l * 2 + H = off + H + 2 * l := by omega
      rw [h4] at h3
      exact h3

/-- On the code sequence of a `goodCode` message the decoding loop performs a
plain per-code `decode_map` rendering and stops exactly at the terminator. -/
theorem decodeMsgLoop_good (cm : Charmap) (fmt : Bool) (text : List Char)
    (h : ∀ c ∈ text, goodCode cm c = true) :
    ∀ (n j : Nat), j + n = text.length →
    decodeMsgLoop cm (msgCodes cm text) fmt j
      = some ⟨text.drop j, [], text.length, true⟩ := by
  intro n
  induction n with
  | zero =>
    intro j hj
    have hj' : j = text.length := by omega
    rw [hj']
    rw [decodeMsgLoop]
    have hlt : text.length < (msgCodes cm text).length := by simp [msgCodes]
    rw [dif_pos hlt]
    have hcode : (msgCodes cm text).getD text.length 0 = 0xFFFF := by
      simp only [msgCodes, List.getD_eq_getElem?_getD]
      rw [List.getElem?_append_right (by simp)]
      simp
    simp only [hcode]
    simp [List.drop_length]
  | succ n ihn =>
    intro j hj
    have hjlt : j < text.length := by omega
    rw [decodeMsgLoop]
    have hlt : j < (msgCodes cm text).length := by
      simp only [msgCodes, List.length_append, List.length_map]
      omega
    rw [dif_pos hlt]
    have hc := h text[j] (List.getElem_mem hjlt)
    have hg := goodCode_spec cm text[j] hc
    have hcode : (msgCodes cm text).getD j 0 = codeOf cm text[j] := by
      simp only [msgCodes, List.getD_eq_getElem?_getD]
      rw [List.getElem?_append_left (by simp; omega), List.getElem?_map,
        List.getElem?_eq_getElem hjlt]
      rfl
    simp only [hcode]
    rw [if_neg hg.2.2.1, if_neg hg.2.2.2.1, if_neg hg.2.2.2.2.1, hg.2.2.2.2.2]
    rw [ihn (j + 1) (by omega)]
    have hdrop : text.drop j = text[j] :: text.drop (j + 1) :=
      List.drop_eq_getElem_cons hjlt
    rw [hdrop]
    rfl

/-- `decode_message_to_string` on the code sequence of a `goodCode` message:
the exact text comes back, with no warning (in particular no trailing-data
warning, the loop having stopped at the final code unit). -/
theorem decode_msg_good (cm : Charmap) (fmt : Bool) (m : List Char)
    (h : ∀ c ∈ m, goodCode cm c = true) :
    decode_message_to_string cm (msgCodes cm m) fmt
      = some ⟨m, [], m.length, true⟩ := by
  rw [decode_message_to_string, decodeMsgLoop_good cm fmt m h m.length 0 (by omega)]
  have hlen : (msgCodes cm m).length = m.length + 1 := by simp [msgCodes]
  simp [hlen]

/-- The per-entry decode loop inverts the encode layout: with the encrypted
bodies of `goodCode` messages laid out after an arbitrary prefix and the
table entries pointing at them, every body is read back, decrypted and
decoded to the original message text. -/
theorem decodeBodies_ok (cm : Charmap) (fmt : Bool) : ∀ (texts : List (List Char))
    (i : Nat) (pre post : List Nat),
    (∀ m ∈ texts, ∀ c ∈ m, goodCode cm c = true) →
    decodeBodies cm (pre ++ ((encBodies cm texts i).flatten.flatMap u16ToBytes ++ post))
      fmt (entriesFor ((encBodies cm texts i).map List.length) pre.length) i
      = Except.ok texts := by
  intro texts
  induction texts with
  | nil => intro i pre post _; simp [encBodies, entriesFor, decodeBodies]
  | cons m rest ih =>
    intro i pre post h
    have hm := h m (List.mem_cons_self m rest)
    have hrest : ∀ x ∈ rest, ∀ c ∈ x, goodCode cm c = true :=
      fun x hx => h x (List.mem_cons_of_mem m hx)
    have hBlt : ∀ c ∈ encrypt_message (msgCodes cm m) i, c < 65536 := by
      unfold encrypt_message
      exact xorStream_lt (msgCodes cm m) (bodyKeyStart i) (msgCodes_lt cm m hm)
        (Nat.mod_lt _ (by norm_num))
    simp only [encBodies, List.map_cons, entriesFor, List.flatten_cons, List.flatMap_append]
    rw [decodeBodies]
    have hassoc : pre ++ (((encrypt_message (msgCodes cm m) i).flatMap u16ToBytes ++
        ((encBodies cm rest (i + 1)).flatten.flatMap u16ToBytes)) ++ post)
        = pre ++ ((encrypt_message (msgCodes cm m) i).flatMap u16ToBytes ++
            ((encBodies cm rest (i + 1)).flatten.flatMap u16ToBytes ++ post)) := by
      simp [List.append_assoc]
    rw [hassoc]
    rw [readCodes_flat (encrypt_message (msgCodes cm m) i) pre
      ((encBodies cm rest (i + 1)).flatten.flatMap u16ToBytes ++ post) hBlt]
    have hdec : decrypt_message (encrypt_message (msgCodes cm m) i) i = msgCodes cm m := by
      unfold decrypt_message encrypt_message
      exact xorStream_invol _ _
    have hiH := ih (i + 1) (pre ++ (encrypt_message (msgCodes cm m) i).flatMap u16ToBytes) post hrest
    have hplen : (pre ++ (encrypt_message (msgCodes cm m) i).flatMap u16ToBytes).length
        = pre.length + 2 * (encrypt_message (msgCodes cm m) i).length := by
      rw [List.length_append, flatMap_u16_len]
    rw [hplen, List.append_assoc] at hiH
    simp [cursorSeekStart, hdec, decode_msg_good cm fmt m hm, hiH]
    rfl

/-- `entriesFor` makes one entry per length. -/
theorem entriesFor_length : ∀ (lens : List Nat) (base : Nat),
    (entriesFor lens base).length = lens.length := by
  intro lens
  induction lens with
  | nil => intro base; rfl
  | cons l rest ih => intro base; simp [entriesFor, ih]

/-- Skipping one serialized `u16` at the front of the byte stream. -/
theorem readU16_after_u16 (x : Nat) (l : List Nat) :
    readU16 (u16ToBytes x ++ l) 2 = readU16 l 0 := by
  simp [u16ToBytes, readU16]

/-- `decode_archive`, assembled from the results of its four stages. -/
theorem decode_archive_eq (cm : Charmap) (bytes : List Nat) (fmt : Bool)
    (mc k : Nat) (tbl : List (Nat × Nat)) (msgs : List (List Char))
    (h1 : readU16 bytes 0 = some mc) (h2 : readU16 bytes 2 = some k)
    (h3 : readTable bytes k mc 0 = some tbl)
    (h4 : decodeBodies cm bytes fmt tbl 1 = Except.ok msgs) :
    decode_archive cm bytes fmt = Except.ok ⟨k, msgs⟩ := by
  unfold decode_archive
  simp only [h1, h2, h3, h4]

/-- C1 (corrected): the archive round-trip holds for every key and message
list whose characters all have plain, invertible charmap codes — the code
exists (the claim's "mapped by the charmap"), fits `u16`, is none of the
three control codes `0xFFFF`/`0xFFFE`/`0xF100`, and is rendered back by the
decode map as exactly that character — provided the key and message count fit
`u16` and the total archive size fits `u32`.  The claim as stated (any mapped
characters) is false: a charmap may map a character to a control code such as
`0xFFFF`, and the encoded message then decodes to a shorter text (see the
counterexample). -/
theorem C1_round_trip (cm : Charmap) (key : Nat) (M : List (List Char)) (fmt : Bool)
    (hkey : key < 65536) (hcount : M.length < 65536)
    (hchars : ∀ m ∈ M, ∀ c ∈ m, goodCode cm c = true)
    (hsize : 4 + 8 * M.length + 2 * (M.map (fun m => m.length + 1)).sum < 4294967296) :
    ∃ bytes, encode_messages cm key M fmt = some bytes ∧
      decode_archive cm bytes fmt = Except.ok ⟨key, M⟩ := by
  have hencAll := encodeAll_good cm fmt M 1 hchars
  have hsum : ((encBodies cm M 1).map List.length).sum
      = (M.map (fun m => m.length + 1)).sum := by
    rw [encBodies_lengths]
  have htab : (buildTable ((encBodies cm M 1).map List.length) 0).map
      (fun e => ((e.1 + (M.length * 8 + 4)) % 4294967296, e.2))
      = entriesFor ((encBodies cm M 1).map List.length) (M.length * 8 + 4) := by
    have h := buildTable_shift ((encBodies cm M 1).map List.length) 0
      (M.length * 8 + 4) (by rw [hsum]; omega)
    rw [Nat.zero_add] at h
    exact h
  have henc : encode_messages cm key M fmt = some
      (u16ToBytes M.length ++ u16ToBytes key ++
        tableBytes key ((buildTable ((encBodies cm M 1).map List.length) 0).map
          (fun e => ((e.1 + (M.length * 8 + 4)) % 4294967296, e.2))) 0 ++
        (encBodies cm M 1).flatten.flatMap u16ToBytes) := by
    unfold encode_messages
    rw [hencAll]
  rw [htab] at henc
  have hassoc0 : u16ToBytes M.length ++ u16ToBytes key ++
      tableBytes key (entriesFor ((encBodies cm M 1).map List.length) (M.length * 8 + 4)) 0 ++
      (encBodies cm M 1).flatten.flatMap u16ToBytes
      = u16ToBytes M.length ++ (u16ToBytes key ++
        (tableBytes key (entriesFor ((encBodies cm M 1).map List.length)
          (M.length * 8 + 4)) 0 ++
         (encBodies cm M 1).flatten.flatMap u16ToBytes)) := by
    simp [List.append_assoc]
  rw [hassoc0] at henc
  have h1 : readU16 (u16ToBytes M.length ++ (u16ToBytes key ++
      (tableBytes key (entriesFor ((encBodies cm M 1).map List.length)
        (M.length * 8 + 4)) 0 ++
       (encBodies cm M 1).flatten.flatMap u16ToBytes))) 0 = some M.length := by
    rw [readU16_u16, Nat.mod_eq_of_lt hcount]
  have h2 : readU16 (u16ToBytes M.length ++ (u16ToBytes key ++
      (tableBytes key (entriesFor ((encBodies cm M 1).map List.length)
        (M.length * 8 + 4)) 0 ++
       (encBodies cm M 1).flatten.flatMap u16ToBytes))) 2 = some key := by
    rw [readU16_after_u16, readU16_u16, Nat.mod_eq_of_lt hkey]
  have h3 : readTable (u16ToBytes M.length ++ (u16ToBytes key ++
      (tableBytes key (entriesFor ((encBodies cm M 1).map List.length)
        (M.length * 8 + 4)) 0 ++
       (encBodies cm M 1).flatten.flatMap u16ToBytes))) key M.length 0
      = some (entriesFor ((encBodies cm M 1).map List.length) (M.length * 8 + 4)) := by
    have hb : ∀ e ∈ entriesFor ((encBodies cm M 1).map List.length) (M.length * 8 + 4),
        e.1 < 4294967296 ∧ e.2 < 4294967296 :=
      entriesFor_bound _ _ (by rw [hsum]; omega)
    have hpre : (u16ToBytes M.length ++ u16ToBytes key).length = 4 + 8 * 0 := by
      simp [u16ToBytes]
    have h := readTable_bytes key
      (entriesFor ((encBodies cm M 1).map List.length) (M.length * 8 + 4)) 0
      (u16ToBytes M.length ++ u16ToBytes key)
      ((encBodies cm M 1).flatten.flatMap u16ToBytes) hpre hb hkey
    have hTElen : (entriesFor ((encBodies cm M 1).map List.length)
        (M.length * 8 + 4)).length = M.length := by
      rw [entriesFor_length, List.length_map, encBodies_length]
    rw [hTElen] at h
    have hshape : (u16ToBytes M.length ++ u16ToBytes key) ++
        (tableBytes key (entriesFor ((encBodies cm M 1).map List.length)
          (M.length * 8 + 4)) 0 ++ (encBodies cm M 1).flatten.flatMap u16ToBytes)
        = u16ToBytes M.length ++ (u16ToBytes key ++
          (tableBytes key (entriesFor ((encBodies cm M 1).map List.length)
            (M.length * 8 + 4)) 0 ++
           (encBodies cm M 1).flatten.flatMap u16ToBytes)) := by
      simp [List.append_assoc]
    rw [hshape] at h
    exact h
  have h4 : decodeBodies cm (u16ToBytes M.length ++ (u16ToBytes key ++
      (tableBytes key (entriesFor ((encBodies cm M 1).map List.length)
        (M.length * 8 + 4)) 0 ++
       (encBodies cm M 1).flatten.flatMap u16ToBytes))) fmt
      (entriesFor ((encBodies cm M 1).map List.length) (M.length * 8 + 4)) 1
      = Except.ok M := by
    have h := decodeBodies_ok cm fmt M 1
      (u16ToBytes M.length ++ (u16ToBytes key ++
        tableBytes key (entriesFor ((encBodies cm M 1).map List.length)
          (M.length * 8 + 4)) 0)) [] hchars
    have hpl : (u16ToBytes M.length ++ (u16ToBytes key ++
        tableBytes key (entriesFor ((encBodies cm M 1).map List.length)
          (M.length * 8 + 4)) 0)).length = M.length * 8 + 4 := by
      simp only [List.length_append, u16ToBytes, List.length_cons, List.length_nil,
        tableBytes_length, entriesFor_length, List.length_map, encBodies_length]
      omega
    rw [hpl, List.append_nil] at h
    have hshape : (u16ToBytes M.length ++ (u16ToBytes key ++
        tableBytes key (entriesFor ((encBodies cm M 1).map List.length)
          (M.length * 8 + 4)) 0)) ++ (encBodies cm M 1).flatten.flatMap u16ToBytes
        = u16ToBytes M.length ++ (u16ToBytes key ++
          (tableBytes key (entriesFor ((encBodies cm M 1).map List.length)
            (M.length * 8 + 4)) 0 ++
           (encBodies cm M 1).flatten.flatMap u16ToBytes)) := by
      simp [List.append_assoc]
    rw [hshape] at h
    exact h
  exact ⟨_, henc, decode_archive_eq cm _ fmt M.length key _ M h1 h2 h3 h4⟩

/-- Witness for C1 at a concrete archive: charmap `A ↔ 0x41`, key `7`, the
single message `"A"`; all hypotheses hold and the round-trip goes through. -/
theorem C1_round_trip_witness :
    (7 < 65536) ∧ (List.length [['A']] < 65536) ∧
    (∀ m ∈ [['A']], ∀ c ∈ m, goodCode cmA c = true) ∧
    (4 + 8 * List.length [['A']] +
      2 * (List.map (fun m => List.length m + 1) [['A']]).sum < 4294967296) ∧
    (∃ bytes, encode_messages cmA 7 [['A']] false = some bytes ∧
      decode_archive cmA bytes false = Except.ok ⟨7, [['A']]⟩) :=
  ⟨by decide, by decide, by decide, by decide,
    C1_round_trip cmA 7 [['A']] false (by decide) (by decide) (by decide) (by decide)⟩

/-- C1 counterexample to the claim as stated: with the charmap `A → 0xFFFF`
(the character is mapped, as the claim requires), the archive with key `0`
and single message `"A"` encodes successfully, but decoding its bytes yields
the empty message instead of `"A"`: the character's code unit is the message
terminator, so the decoder stops before it. -/
theorem C1_counterexample :
    (∀ m ∈ [['A']], ∀ c ∈ m, (alookup cmBad.encode_map [c]).isSome = true) ∧
    encode_messages cmBad 0 [['A']] false
      = some [1, 0, 0, 0, 12, 0, 0, 0, 2, 0, 0, 0, 44, 228, 239, 154] ∧
    decode_archive cmBad [1, 0, 0, 0, 12, 0, 0, 0, 2, 0, 0, 0, 44, 228, 239, 154] false
      = Except.ok ⟨0, [[]]⟩ := by
  have h1 : encodeMsgLoop cmBad false ['A'] = some ([0xFFFF], []) := by
    rw [encodeMsgLoop, encodeMsgLoop]
    rfl
  have h2 : encode_string_to_message cmBad ['A'] false = some ([0xFFFF, 0xFFFF], []) := by
    rw [encode_string_to_message, h1]
    rfl
  have h3 : encodeAll cmBad false [['A']] 1 = some [[58412, 39663]] := by
    rw [encodeAll, h2, encodeAll]
    decide
  have henc : encode_messages cmBad 0 [['A']] false
      = some [1, 0, 0, 0, 12, 0, 0, 0, 2, 0, 0, 0, 44, 228, 239, 154] := by
    unfold encode_messages
    rw [h3]
    decide
  have h5 : decodeMsgLoop cmBad [0xFFFF, 0xFFFF] false 0 = some ⟨[], [], 0, true⟩ := by
    rw [decodeMsgLoop]
    rfl
  have h6 : decode_message_to_string cmBad [0xFFFF, 0xFFFF] false
      = some ⟨[], [Warn.trailing 1], 0, true⟩ := by
    rw [decode_message_to_string, h5]
    rfl
  have hr : readCodes [1, 0, 0, 0, 12, 0, 0, 0, 2, 0, 0, 0, 44, 228, 239, 154] 12 2
      = some [58412, 39663] := by decide
  have hd : decrypt_message [58412, 39663] 1 = [65535, 65535] := by decide
  have h7 : decodeBodies cmBad [1, 0, 0, 0, 12, 0, 0, 0, 2, 0, 0, 0, 44, 228, 239, 154]
      false [(12, 2)] 1 = Except.ok [[]] := by
    simp only [decodeBodies, cursorSeekStart, hr, hd, h6]
    rfl
  exact ⟨by decide, henc,
    decode_archive_eq cmBad _ false 1 0 [(12, 2)] [[]] (by decide) (by decide) (by decide) h7⟩
